import Mathlib

/-!
# Verification of the zetacrush-search text pipeline and search-state coordinator

Shallow embedding of the repository's core logic:

* the Sentence Extractor `extractTopSentences` (utils, `SearchResultItem.tsx`),
* the Text Sanitizer `parseMediaWikiText`,
* the Search State Coordinator of `SearchContext.tsx` (current revision: the
  one with the `isLoading` guard, the URL-parameter refs and the disabled
  suggestion fetch),
* the URL query-parameter codec used for deep linking (`URLSearchParams`
  semantics, i.e. `application/x-www-form-urlencoded`).

Strings are modelled as `List Char`; JavaScript numbers as `Int` (an absent /
`NaN` value as `none : Option Int`); the two float comparisons of the sentence
filter (`letterRatio < 0.6`, `numbersAndSymbols > totalLength * 0.3`) are
modelled as the exact rational comparisons.  The regex passes are embedded as
fuelled left-to-right scanners with the match semantics of the concrete
patterns (leftmost match, one-character advance on failure, greedy character
classes, lazy dots that do not cross line terminators).
-/

namespace ZetaCrush

/-! ## JavaScript character classes -/

/-- JavaScript `\\s` (the class used by `String.trim`, `\\s+` and `[^\\s\\]]`):
space, tab, LF, VT, FF, CR, NBSP, the Unicode space separators, LS, PS,
NNBSP, MMSP, ideographic space and the BOM. -/
def isJsWs (c : Char) : Bool :=
  c = ' ' || c = '\t' || c = '\n' || c.toNat = 0x0b || c.toNat = 0x0c || c = '\r' ||
  c.toNat = 0xa0 || c.toNat = 0x1680 || (0x2000 ≤ c.toNat && c.toNat ≤ 0x200a) ||
  c.toNat = 0x2028 || c.toNat = 0x2029 || c.toNat = 0x202f || c.toNat = 0x205f ||
  c.toNat = 0x3000 || c.toNat = 0xfeff

/-- Line terminators, which the JavaScript `.` (without the `s` flag) does not match. -/
def isLineTerm (c : Char) : Bool :=
  c = '\n' || c = '\r' || c.toNat = 0x2028 || c.toNat = 0x2029

/-- `String.prototype.trim`. -/
def trimChars (l : List Char) : List Char :=
  ((l.dropWhile isJsWs).reverse.dropWhile isJsWs).reverse

/-! ## Generic regex-pass machinery -/

/-- Lazy scan `.*?pat` (used for closing delimiters): the shortest run of
characters before the first occurrence of `pat`, together with the remainder
after `pat`.  With `dotAll = false` the run must not contain a line
terminator, mirroring the JavaScript `.`. -/
def scanToPat (pat : List Char) (dotAll : Bool) : Nat → List Char → Option (List Char × List Char)
  | 0, _ => none
  | fuel+1, l =>
    if pat.isPrefixOf l then some ([], l.drop pat.length)
    else
      match l with
      | [] => none
      | c :: rest =>
        if !dotAll && isLineTerm c then none
        else
          match scanToPat pat dotAll fuel rest with
          | some (pre, after) => some (c :: pre, after)
          | none => none

/-- One global-replace pass: at each position try `step`; on a match emit the
replacement and continue after the match, otherwise copy one character and
advance (the semantics of `String.replace` with a `g`-flagged regex). -/
def scanRewrite (step : List Char → Option (List Char × List Char)) : Nat → List Char → List Char
  | 0, l => l
  | _+1, [] => []
  | fuel+1, c :: rest =>
    match step (c :: rest) with
    | some (rep, after) => rep ++ scanRewrite step fuel after
    | none => c :: scanRewrite step fuel rest

/-- Run a pass with enough fuel for the whole input. -/
def runPass (step : List Char → Option (List Char × List Char)) (l : List Char) : List Char :=
  scanRewrite step l.length l

/-! ## The cleaning passes of `extractTopSentences`

Each matcher returns `some (replacement, remainder)` when its regex matches at
the current position. -/

/-- `/\{\{Cite[^}]+\}\}/gi` (and its duplicate `/\{\{cite[^}]+\}\}/gi`). -/
def citeStep (l : List Char) : Option (List Char × List Char) :=
  if ['{', '{'].isPrefixOf l then
    let r := l.drop 2
    if (r.take 4).map Char.toLower = ['c', 'i', 't', 'e'] then
      let body := r.drop 4
      let inner := body.takeWhile (· != '}')
      let rest := body.dropWhile (· != '}')
      if 1 ≤ inner.length && ['}', '}'].isPrefixOf rest then some ([], rest.drop 2)
      else none
    else none
  else none

/-- `/\{\{[^}]+\}\}/g`. -/
def templateStep (l : List Char) : Option (List Char × List Char) :=
  if ['{', '{'].isPrefixOf l then
    let body := l.drop 2
    let inner := body.takeWhile (· != '}')
    let rest := body.dropWhile (· != '}')
    if 1 ≤ inner.length && ['}', '}'].isPrefixOf rest then some ([], rest.drop 2)
    else none
  else none

/-- `/<ref.*?>.*?<\/ref>/g`. -/
def refStep (l : List Char) : Option (List Char × List Char) :=
  if ['<', 'r', 'e', 'f'].isPrefixOf l then
    match scanToPat ['>'] false (l.length + 1) (l.drop 4) with
    | some (_, afterGt) =>
      match scanToPat ['<', '/', 'r', 'e', 'f', '>'] false (l.length + 1) afterGt with
      | some (_, after) => some ([], after)
      | none => none
    | none => none
  else none

/-- `/\[\d+\]/g`. -/
def numCiteStep (l : List Char) : Option (List Char × List Char) :=
  match l with
  | '[' :: body =>
    let ds := body.takeWhile Char.isDigit
    let rest := body.dropWhile Char.isDigit
    if 1 ≤ ds.length && rest.head? = some ']' then some ([], rest.tail)
    else none
  | _ => none

/-- `/\[\[([^|]+)\|([^\]]+)\]\]/g` replaced by `$2`. -/
def linkPipeStep (l : List Char) : Option (List Char × List Char) :=
  if ['[', '['].isPrefixOf l then
    let body := l.drop 2
    let g1 := body.takeWhile (· != '|')
    let r1 := body.dropWhile (· != '|')
    if 1 ≤ g1.length && r1.head? = some '|' then
      let b2 := r1.tail
      let g2 := b2.takeWhile (· != ']')
      let r2 := b2.dropWhile (· != ']')
      if 1 ≤ g2.length && [']', ']'].isPrefixOf r2 then some (g2, r2.drop 2)
      else none
    else none
  else none

/-- `/\[\[([^\]]+)\]\]/g` replaced by `$1`. -/
def linkStep (l : List Char) : Option (List Char × List Char) :=
  if ['[', '['].isPrefixOf l then
    let body := l.drop 2
    let g1 := body.takeWhile (· != ']')
    let r1 := body.dropWhile (· != ']')
    if 1 ≤ g1.length && [']', ']'].isPrefixOf r1 then some (g1, r1.drop 2)
    else none
  else none

/-- `/\[http[^\]]+\]/g`. -/
def extHttpStep (l : List Char) : Option (List Char × List Char) :=
  if ['[', 'h', 't', 't', 'p'].isPrefixOf l then
    let body := l.drop 5
    let g := body.takeWhile (· != ']')
    let rest := body.dropWhile (· != ']')
    if 1 ≤ g.length && rest.head? = some ']' then some ([], rest.tail)
    else none
  else none

/-- `/\[(https?:\/\/[^\s\]]+)([^\]]*)\]/g` replaced by `$2`. -/
def extUrlStep (l : List Char) : Option (List Char × List Char) :=
  match l with
  | '[' :: t =>
    if ['h', 't', 't', 'p'].isPrefixOf t then
      let t2 := t.drop 4
      let t3 := if t2.head? = some 's' then t2.tail else t2
      if [':', '/', '/'].isPrefixOf t3 then
        let b := t3.drop 3
        let g1 := b.takeWhile (fun c => !isJsWs c && c != ']')
        let r1 := b.dropWhile (fun c => !isJsWs c && c != ']')
        if 1 ≤ g1.length then
          let g2 := r1.takeWhile (· != ']')
          let r2 := r1.dropWhile (· != ']')
          if r2.head? = some ']' then some (g2, r2.tail) else none
        else none
      else none
    else none
  | _ => none

/-- `/\{\|[\s\S]*?\|\}/g`. -/
def tableStep (l : List Char) : Option (List Char × List Char) :=
  if ['{', '|'].isPrefixOf l then
    match scanToPat ['|', '}'] true (l.length + 1) (l.drop 2) with
    | some (_, after) => some ([], after)
    | none => none
  else none

/-- `/q(.*?)q/g` replaced by `pre ++ $1 ++ post`, for a literal delimiter `q`
(used for `'''` bold and `''` italic, both in the extractor and the sanitizer). -/
def quoteStep (q pre post : List Char) (l : List Char) : Option (List Char × List Char) :=
  if q.isPrefixOf l then
    match scanToPat q false (l.length + 1) (l.drop q.length) with
    | some (inner, after) => some (pre ++ inner ++ post, after)
    | none => none
  else none

/-- `/===+([^=]+)===+/g`. -/
def headerStep (l : List Char) : Option (List Char × List Char) :=
  let eqs := l.takeWhile (· == '=')
  if 3 ≤ eqs.length then
    let b := l.dropWhile (· == '=')
    let inner := b.takeWhile (· != '=')
    let r := b.dropWhile (· != '=')
    let closing := r.takeWhile (· == '=')
    if 1 ≤ inner.length && 3 ≤ closing.length then some ([], r.drop closing.length)
    else none
  else none

/-- `/\s+/g` replaced by a single space. -/
def wsStep (l : List Char) : Option (List Char × List Char) :=
  match l with
  | c :: _ => if isJsWs c then some ([' '], l.dropWhile isJsWs) else none
  | [] => none

/-- The full markup-cleaning pipeline of `extractTopSentences` (the fourteen
`replace` calls, in source order, followed by `.trim()`). -/
def cleanWiki (l : List Char) : List Char :=
  let s1 := runPass citeStep l
  let s2 := runPass citeStep s1
  let s3 := runPass templateStep s2
  let s4 := runPass refStep s3
  let s5 := runPass numCiteStep s4
  let s6 := runPass linkPipeStep s5
  let s7 := runPass linkStep s6
  let s8 := runPass extHttpStep s7
  let s9 := runPass extUrlStep s8
  let s10 := runPass tableStep s9
  let s11 := runPass (quoteStep "'''".toList [] []) s10
  let s12 := runPass (quoteStep "''".toList [] []) s11
  let s13 := runPass headerStep s12
  trimChars (runPass wsStep s13)

/-! ## Sentence splitting and the readability filter -/

/-- Sentence-terminal punctuation, `[.!?]`. -/
def isTermCh (c : Char) : Bool := c == '.' || c == '!' || c == '?'

/-- `String.prototype.split(/[.!?]+/)` (fuelled; `splitTerm` supplies the fuel). -/
def splitTermF : Nat → List Char → List (List Char)
  | 0, l => [l]
  | fuel+1, l =>
    let p := l.takeWhile (fun c => !isTermCh c)
    let r := l.dropWhile (fun c => !isTermCh c)
    match r with
    | [] => [p]
    | _ :: _ => p :: splitTermF fuel (r.dropWhile isTermCh)

def splitTerm (l : List Char) : List (List Char) := splitTermF l.length l

/-- Count of `[a-zA-Z]` matches. -/
def letterCnt (l : List Char) : Nat :=
  l.countP (fun c => ('a' ≤ c && c ≤ 'z') || ('A' ≤ c && c ≤ 'Z'))

/-- Count of `[{}[\]()=|*#:;]` matches. -/
def markupCnt (l : List Char) : Nat :=
  l.countP (fun c => "{}[]()=|*#:;".toList.contains c)

/-- Count of `[0-9@#$%^&*+=<>]` matches. -/
def numSymCnt (l : List Char) : Nat :=
  l.countP (fun c => c.isDigit || "@#$%^&*+=<>".toList.contains c)

/-- `/^[A-Z_]+\s*[:=]/`. -/
def looksLikeCode (t : List Char) : Bool :=
  let caps := t.takeWhile (fun c => ('A' ≤ c && c ≤ 'Z') || c = '_')
  let r := (t.dropWhile (fun c => ('A' ≤ c && c ≤ 'Z') || c = '_')).dropWhile isJsWs
  1 ≤ caps.length && (r.head? = some ':' || r.head? = some '=')

/-- `/^\d+\s*[.:]\s*/`. -/
def numberedList (t : List Char) : Bool :=
  let ds := t.takeWhile Char.isDigit
  let r := (t.dropWhile Char.isDigit).dropWhile isJsWs
  1 ≤ ds.length && (r.head? = some '.' || r.head? = some ':')

/-- `/^[*-]\s+/`. -/
def bulletPoint (t : List Char) : Bool :=
  match t with
  | c1 :: c2 :: _ => (c1 = '*' || c1 = '-') && isJsWs c2
  | _ => false

/-- The stop-word alternation of the `hasCommonWords` regex. -/
def commonWords : List (List Char) :=
  ["the", "a", "an", "and", "or", "but", "in", "on", "at", "to", "for", "of",
   "with", "by", "from", "is", "are", "was", "were", "be", "been", "being",
   "have", "has", "had", "do", "does", "did", "will", "would", "could",
   "should", "may", "might", "can", "this", "that", "these",
   "those"].map String.toList

/-- JavaScript `\w`, the word-character class used by `\b`. -/
def isWordChar (c : Char) : Bool := c.isAlphanum || c = '_'

/-- Case-insensitive match of word `w` at the current position, with a
word-boundary after it. -/
def wordAt (w l : List Char) : Bool :=
  w.isPrefixOf (l.map Char.toLower) && !isWordChar ((l.drop w.length).headD ' ')

/-- Scan for `/\b(the|a|…)\b/i`; `prevW` records whether the previous character
was a word character (for the leading boundary). -/
def hasCommonScan : Bool → List Char → Bool
  | _, [] => false
  | prevW, c :: rest =>
    (!prevW && commonWords.any (fun w => wordAt w (c :: rest))) ||
      hasCommonScan (isWordChar c) rest

def hasCommonWord (t : List Char) : Bool := hasCommonScan false t

/-- The filter body of `extractTopSentences`, applied to the trimmed sentence.
`letterRatio < 0.6` is the exact `5 * letters < 3 * length` and
`numbersAndSymbols > totalLength * 0.3` the exact `10 * count > 3 * length`
(the JavaScript float comparisons agree with these on all actual counts). -/
def passesChecks (t : List Char) : Bool :=
  decide (20 ≤ t.length) &&
  decide (3 * t.length ≤ 5 * letterCnt t) &&
  decide (markupCnt t ≤ 3) &&
  decide (10 * numSymCnt t ≤ 3 * t.length) &&
  !looksLikeCode t && !numberedList t && !bulletPoint t &&
  hasCommonWord t

/-- The filter predicate as applied by `sentences.filter(...)` (it trims its
argument itself). -/
def sentenceFilter (s : List Char) : Bool := passesChecks (trimChars s)

/-- The sentence candidates of a raw text that pass all filters. -/
def sentencesOf (text : List Char) : List (List Char) :=
  (splitTerm (cleanWiki text)).filter sentenceFilter

/-- `Array.prototype.join('. ')`. -/
def joinSep : List (List Char) → List Char
  | [] => []
  | [x] => x
  | x :: y :: rest => x ++ ('.' :: ' ' :: []) ++ joinSep (y :: rest)

/-- `.replace(/\.\s*$/, '')`: remove a final period followed only by
whitespace, if present. -/
def stripTrailDot (l : List Char) : List Char :=
  match l.reverse.dropWhile isJsWs with
  | '.' :: rr => rr.reverse
  | _ => l

/-- `extractTopSentences`, on character lists. -/
def extractChars (text : List Char) (count : Nat) : List Char :=
  if text.isEmpty then []
  else
    let sel := ((sentencesOf text).take count).map trimChars
    stripTrailDot (joinSep sel) ++ ['.']

/-- `extractTopSentences(text, count = 3)` (`src/unnamed/part_002` and
`SearchResultItem.tsx`).  `count` is the requested sentence count. -/
def extractTopSentences (text : String) (count : Nat := 3) : String :=
  String.mk (extractChars text.data count)

/-- The sentences actually emitted by `extractChars text count`. -/
def selOf (text : List Char) (count : Nat) : List (List Char) :=
  ((sentencesOf text).take count).map trimChars

/-- `.replace(/\.\s*$/, '')` restricted to a single final period: remove the
trailing period of an extractor result (used to state the claim C10). -/
def dropTrailPeriod (s : String) : String :=
  if s.data.getLast? = some '.' then String.mk s.data.dropLast else s

/-! ## The Text Sanitizer `parseMediaWikiText` -/

/-- The replacement for `<mark>…</mark>` up to the captured group. -/
def markOpenRep : List Char :=
  "<span class=\"highlight bg-yellow-200 dark:bg-yellow-800\">".toList

def markCloseRep : List Char := "</span>".toList

/-- `/o(.*?)c/g` replaced by `pre ++ $1 ++ post` for literal delimiters `o`, `c`
(the `<mark>` rule of the sanitizer; `quoteStep` is the case `o = c`). -/
def tagStep (openPat closePat pre post : List Char) (l : List Char) :
    Option (List Char × List Char) :=
  if openPat.isPrefixOf l then
    match scanToPat closePat false (l.length + 1) (l.drop openPat.length) with
    | some (inner, after) => some (pre ++ inner ++ post, after)
    | none => none
  else none

/-- `/\n{2,}/g` replaced by `</p><p>`. -/
def paraStep (l : List Char) : Option (List Char × List Char) :=
  match l with
  | c1 :: c2 :: _ =>
    if c1 = '\n' ∧ c2 = '\n' then some ("</p><p>".toList, l.dropWhile (· == '\n'))
    else none
  | _ => none

/-- The final step of the sanitizer: wrap in a paragraph if not already done. -/
def wrapP (h : List Char) : List Char :=
  if "<p>".toList.isPrefixOf h then h else "<p>".toList ++ h ++ "</p>".toList

/-- `parseMediaWikiText` on character lists: highlight spans, bold, italic,
paragraph breaks, and the final paragraph wrap.  The body is total, so the
`catch` branch of the source (returning `<p>` + original text) is dead code. -/
def parseMediaWikiChars (l : List Char) : List Char :=
  wrapP (runPass paraStep
    (runPass (quoteStep "''".toList "<em>".toList "</em>".toList)
      (runPass (quoteStep "'''".toList "<strong>".toList "</strong>".toList)
        (runPass (tagStep "<mark>".toList "</mark>".toList markOpenRep markCloseRep) l))))

/-- `parseMediaWikiText` (`src/unnamed/part_002` and `SearchResultItem.tsx`). -/
def parseMediaWikiText (text : String) : String :=
  String.mk (parseMediaWikiChars text.data)

/-! ## A rewriting relation abstracting the sanitizer passes

`Rw R t u` says `u` is obtained from `t` by a left-to-right pass that copies
characters and replaces matched segments according to the rule set `R`. -/

inductive Rw (R : List Char → List Char → Prop) : List Char → List Char → Prop
  | nil : Rw R [] []
  | copy (c : Char) {t u : List Char} : Rw R t u → Rw R (c :: t) (c :: u)
  | rewriteRule {m rep t u : List Char} : R m rep → Rw R t u → Rw R (m ++ t) (rep ++ u)

/-- The matched-segment/replacement pairs used by the four sanitizer passes. -/
inductive PRule : List Char → List Char → Prop
  | mark : PRule "<mark>".toList markOpenRep
  | markClose : PRule "</mark>".toList markCloseRep
  | bold : PRule "'''".toList "<strong>".toList
  | boldClose : PRule "'''".toList "</strong>".toList
  | italic : PRule "''".toList "<em>".toList
  | italicClose : PRule "''".toList "</em>".toList
  | para (k : Nat) : 2 ≤ k → PRule (List.replicate k '\n') "</p><p>".toList

/-- Conditions on a rule set under which a pass can neither contain nor create
an occurrence of the pattern `P` inside or around a replacement. -/
def ruleSafe (P : List Char) (R : List Char → List Char → Prop) : Prop :=
  ∀ m rep, R m rep → m ≠ [] ∧ rep ≠ [] ∧ P.length ≤ rep.length ∧ ¬(P <:+: rep) ∧
    (∀ k, k < P.length → 0 < k → ¬((P.take k) <:+ rep) ∧ ¬((P.drop k) <+: rep))

/-! ## The URL query-string codec (`URLSearchParams`)

`performSearch` writes `query`/`page`/`pageSize` with `URLSearchParams.set`
followed by `toString()`; the URL-parameter effect reads them back with
`searchParams.get`.  This is the `application/x-www-form-urlencoded` codec of
the platform, embedded here byte-faithfully (UTF-8 + percent-encoding, space
as `+`). -/

/-- The bytes serialized verbatim by `application/x-www-form-urlencoded`:
`0-9 A-Z a-z * - . _`. -/
def isUrlSafe (c : Char) : Bool :=
  ('0' ≤ c && c ≤ '9') || ('A' ≤ c && c ≤ 'Z') || ('a' ≤ c && c ≤ 'z') ||
  c = '*' || c = '-' || c = '.' || c = '_'

/-- UTF-8 encoding of one Unicode scalar value. -/
def utf8Bytes (c : Char) : List Nat :=
  let n := c.toNat
  if n < 0x80 then [n]
  else if n < 0x800 then [0xc0 + n / 64, 0x80 + n % 64]
  else if n < 0x10000 then [0xe0 + n / 4096, 0x80 + n / 64 % 64, 0x80 + n % 64]
  else [0xf0 + n / 262144, 0x80 + n / 4096 % 64, 0x80 + n / 64 % 64, 0x80 + n % 64]

def hexDigit (n : Nat) : Char :=
  ['0', '1', '2', '3', '4', '5', '6', '7', '8', '9', 'A', 'B', 'C', 'D', 'E', 'F'].getD n '0'

def isHexDigit (c : Char) : Bool :=
  ('0' ≤ c && c ≤ '9') || ('A' ≤ c && c ≤ 'F') || ('a' ≤ c && c ≤ 'f')

def hexVal (c : Char) : Nat :=
  if '0' ≤ c && c ≤ '9' then c.toNat - 48
  else if 'A' ≤ c && c ≤ 'F' then c.toNat - 55
  else c.toNat - 87

/-- Percent-encode one byte. -/
def encByte (b : Nat) : List Char := ['%', hexDigit (b / 16), hexDigit (b % 16)]

/-- Serialize one character of a parameter value. -/
def encChar (c : Char) : List Char :=
  if c = ' ' then ['+']
  else if isUrlSafe c then [c]
  else (utf8Bytes c).flatMap encByte

/-- The `URLSearchParams` serializer for one value. -/
def encodeValue (l : List Char) : List Char := l.flatMap encChar

/-- Percent-decoding of a value into its byte sequence: `+` is a space, `%hh`
a byte, any other character contributes its own UTF-8 bytes.  Each step
consumes one fuel unit, so fuel `l.length` always suffices. -/
def percentDecode : Nat → List Char → List Nat
  | 0, _ => []
  | _+1, [] => []
  | fuel+1, c :: rest =>
    if c = '+' then 32 :: percentDecode fuel rest
    else if c = '%' then
      match rest with
      | h :: lo :: rest' =>
        if isHexDigit h && isHexDigit lo then
          (16 * hexVal h + hexVal lo) :: percentDecode fuel rest'
        else utf8Bytes c ++ percentDecode fuel rest
      | _ => utf8Bytes c ++ percentDecode fuel rest
    else utf8Bytes c ++ percentDecode fuel rest

/-- UTF-8 decoding of a byte stream (invalid sequences yield U+FFFD, as in the
WHATWG decoder).  Each decoded character consumes one fuel unit, so fuel
`bytes.length` always suffices. -/
def utf8Decode : Nat → List Nat → List Char
  | 0, _ => []
  | _+1, [] => []
  | fuel+1, b :: rest =>
    if b < 0x80 then Char.ofNat b :: utf8Decode fuel rest
    else if b < 0xc0 then Char.ofNat 0xfffd :: utf8Decode fuel rest
    else if b < 0xe0 then
      match rest with
      | b2 :: rest' =>
        if 0x80 ≤ b2 && b2 < 0xc0 then
          Char.ofNat ((b - 0xc0) * 64 + (b2 - 0x80)) :: utf8Decode fuel rest'
        else Char.ofNat 0xfffd :: utf8Decode fuel rest
      | _ => Char.ofNat 0xfffd :: utf8Decode fuel rest
    else if b < 0xf0 then
      match rest with
      | b2 :: b3 :: rest' =>
        if (0x80 ≤ b2 && b2 < 0xc0) && (0x80 ≤ b3 && b3 < 0xc0) then
          Char.ofNat ((b - 0xe0) * 4096 + (b2 - 0x80) * 64 + (b3 - 0x80)) :: utf8Decode fuel rest'
        else Char.ofNat 0xfffd :: utf8Decode fuel rest
      | _ => Char.ofNat 0xfffd :: utf8Decode fuel rest
    else if b < 0xf8 then
      match rest with
      | b2 :: b3 :: b4 :: rest' =>
        if (0x80 ≤ b2 && b2 < 0xc0) && ((0x80 ≤ b3 && b3 < 0xc0) && (0x80 ≤ b4 && b4 < 0xc0)) then
          Char.ofNat ((b - 0xf0) * 262144 + (b2 - 0x80) * 4096 + (b3 - 0x80) * 64 + (b4 - 0x80)) ::
            utf8Decode fuel rest'
        else Char.ofNat 0xfffd :: utf8Decode fuel rest
      | _ => Char.ofNat 0xfffd :: utf8Decode fuel rest
    else Char.ofNat 0xfffd :: utf8Decode fuel rest

/-- The `URLSearchParams` parser's decoding of one key or value. -/
def decodeValue (l : List Char) : List Char :=
  utf8Decode (percentDecode l.length l).length (percentDecode l.length l)

/-- Split a query string at `&` (the segment separator). -/
def splitAmp : Nat → List Char → List (List Char)
  | 0, l => [l]
  | fuel+1, l =>
    match l.dropWhile (· != '&') with
    | [] => [l.takeWhile (· != '&')]
    | _ :: r' => l.takeWhile (· != '&') :: splitAmp fuel r'

/-- Key and value of one `key=value` segment (value empty when `=` is absent). -/
def pairOf (seg : List Char) : List Char × List Char :=
  (seg.takeWhile (· != '='),
    match seg.dropWhile (· != '=') with
    | [] => []
    | _ :: v => v)

/-- `URLSearchParams.get`: the decoded value of the first pair whose decoded
key equals `key`; empty segments are skipped. -/
def getParamAux (key : List Char) : List (List Char) → Option (List Char)
  | [] => none
  | seg :: rest =>
    if seg = [] then getParamAux key rest
    else if decodeValue (pairOf seg).1 = key then some (decodeValue (pairOf seg).2)
    else getParamAux key rest

def getParam (s : String) (key : String) : Option String :=
  (getParamAux key.data (splitAmp s.data.length s.data)).map String.mk

/-- `Number.prototype.toString` for the page/size values written into the URL
(an absent or `NaN` value prints as `"NaN"`). -/
def jsNumToString (v : Option Int) : List Char :=
  match v with
  | none => "NaN".toList
  | some i => (toString i).toList

/-- The query string written by `performSearch`: `URLSearchParams` with
`query`, `page`, `pageSize` set in insertion order. -/
def serializeParams (q : String) (page size : Option Int) : String :=
  String.mk ("query=".toList ++ encodeValue q.data ++
    "&page=".toList ++ encodeValue (jsNumToString page) ++
    "&pageSize=".toList ++ encodeValue (jsNumToString size))

/-! ## The Search State Coordinator (`SearchContext.tsx`, current revision)

State cells (`useState`) and the two refs are gathered in `SearchState`; a
coordinator operation is a pure function from the state (plus the outcome of
its network request, which is external) to the new state, the list of
requests it issued, and the list of navigations it performed (as the query
strings passed to `navigate`). -/

/-- A search hit as held in the context state (`SearchResult`).  The float
`score` is modelled as a rational. -/
structure SearchResult where
  id : String
  title : String
  text : String
  contributor : Option String := none
  timestamp : Option String := none
  score : Rat := 0
  highlightsTitle : Option (List String) := none
  highlightsText : Option (List String) := none
  url : Option String := none
deriving DecidableEq

/-- A search response body (`data`); absent JSON fields are `none`. -/
structure SearchResponse where
  total : Option Int := none
  page : Option Int := none
  page_size : Option Int := none
  results : Option (List SearchResult) := none
  suggest : Option (List String) := none
deriving DecidableEq

/-- The provider state: the `useState` cells plus the refs
`hasProcessedUrlParams` and `lastSearchQuery`. -/
structure SearchState where
  query : String
  searchResults : List SearchResult
  totalResults : Int
  currentPage : Int
  pageSize : Int
  isLoading : Bool
  suggestions : List String
  apiHealthy : Bool
  hasProcessedUrlParams : Bool
  lastSearchQuery : String
deriving DecidableEq

/-- The initial state on mount. -/
def initState : SearchState :=
  { query := "", searchResults := [], totalResults := 0, currentPage := 1,
    pageSize := 10, isLoading := false, suggestions := [], apiHealthy := true,
    hasProcessedUrlParams := false, lastSearchQuery := "" }

/-- The network requests the coordinator can issue. -/
inductive ApiRequest
  | search (query : String) (page size : Option Int)
  | suggest (query : String)
  | health
deriving DecidableEq

/-- `x || d` for a JavaScript number (`none` models `NaN`/absent; `0` is
falsy). -/
def orJs (v : Option Int) (d : Int) : Int :=
  match v with
  | none => d
  | some x => if x = 0 then d else x

/-- `parseInt(s, 10)`: skip leading whitespace, optional sign, then a maximal
digit run (`none` is `NaN`); trailing garbage is ignored. -/
def parseDigits (l : List Char) : Option Nat :=
  let ds := l.takeWhile Char.isDigit
  if ds.isEmpty then none
  else some (ds.foldl (fun acc c => 10 * acc + (c.toNat - 48)) 0)

def jsParseInt (s : String) : Option Int :=
  match s.data.dropWhile isJsWs with
  | '-' :: rest => (parseDigits rest).map (fun n => -(n : Int))
  | '+' :: rest => (parseDigits rest).map (fun n => (n : Int))
  | t => (parseDigits t).map (fun n => (n : Int))

/-- `parseInt(s, 10) || d`. -/
def parseIntOr (s : String) (d : Int) : Int := orJs (jsParseInt s) d

/-- `encodeURIComponent` (safe set `A-Za-z0-9 - _ . ! ~ * ' ( )`). -/
def isUriCompSafe (c : Char) : Bool :=
  c.isAlphanum || c = '-' || c = '_' || c = '.' || c = '!' || c = '~' ||
  c = '*' || c = '\'' || c = '(' || c = ')'

def encodeURIComponent (l : List Char) : List Char :=
  l.flatMap (fun c => if isUriCompSafe c then [c] else (utf8Bytes c).flatMap encByte)

/-- The Wikipedia URL derived for each result:
`https://en.wikipedia.org/wiki/` + `encodeURIComponent(title.replace(/ /g, '_'))`. -/
def wikiUrl (title : String) : String :=
  String.mk ("https://en.wikipedia.org/wiki/".toList ++
    encodeURIComponent (title.data.map (fun c => if c = ' ' then '_' else c)))

/-- `performSearchInternal` of the current `SearchContext`: blank-query early
return, the `isLoading` duplicate-search guard, the request, the success
updates (with derived URLs, `||` defaults and the conditional navigation) and
the failure branch; `finally` clears the loading flag. -/
def performSearchInternal (st : SearchState) (searchQuery : String)
    (page size : Option Int) (shouldNavigate : Bool)
    (outcome : Except Unit SearchResponse) :
    SearchState × List ApiRequest × List String :=
  if (trimChars searchQuery.data).isEmpty then
    ({ st with searchResults := [], totalResults := 0, suggestions := [] }, [], [])
  else if st.isLoading then (st, [], [])
  else
    match outcome with
    | .ok data =>
      ({ st with
          isLoading := false,
          searchResults := (data.results.getD []).map
            (fun r => { r with url := some (wikiUrl r.title) }),
          totalResults := orJs data.total 0,
          currentPage := orJs data.page 1,
          pageSize := orJs data.page_size 10,
          suggestions := data.suggest.getD [],
          apiHealthy := true },
        [ApiRequest.search searchQuery page size],
        if shouldNavigate then [serializeParams searchQuery page size] else [])
    | .error _ =>
      ({ st with
          isLoading := false, searchResults := [], totalResults := 0,
          suggestions := [] },
        [ApiRequest.search searchQuery page size], [])

/-- The public `performSearch`: reset the URL-params flag, then search with
navigation. -/
def performSearch (st : SearchState) (searchQuery : String)
    (page : Option Int := some 1) (size : Option Int := some 10)
    (outcome : Except Unit SearchResponse := Except.error ()) :
    SearchState × List ApiRequest × List String :=
  performSearchInternal { st with hasProcessedUrlParams := false }
    searchQuery page size true outcome

/-- `fetchSuggestions` of the current `SearchContext`: clears the list on
blank input and otherwise returns an empty list — the remote `/api/suggest`
call is commented out, so no request is ever issued.  The third component is
the returned suggestion list. -/
def fetchSuggestions (st : SearchState) (queryText : String) :
    SearchState × List ApiRequest × List String :=
  if (trimChars queryText.data).isEmpty then ({ st with suggestions := [] }, [], [])
  else (st, [], [])

/-- The guard of `SearchBar`'s debounced suggestion fetcher: the inner closure
only calls `fetchSuggestions` when `value.trim().length >= 2`. -/
def debouncedFetchFires (value : String) : Bool :=
  decide (2 ≤ (trimChars value.data).length)

/-- `queryParam ? ... : d` for string URL parameters (`none` is `null`, the
empty string is falsy). -/
def applyQueryParam (st : SearchState) (qp : Option String) : SearchState :=
  match qp with
  | some s => if s ≠ "" then { st with query := s, lastSearchQuery := s } else st
  | none => st

def applyPageParam (st : SearchState) (pp : Option String) : SearchState :=
  match pp with
  | some s => if s ≠ "" then { st with currentPage := parseIntOr s 1 } else st
  | none => st

def applyPageSizeParam (st : SearchState) (ps : Option String) : SearchState :=
  match ps with
  | some s => if s ≠ "" then { st with pageSize := parseIntOr s 10 } else st
  | none => st

/-- The `page` argument passed to the replayed search:
`pageParam ? parseInt(pageParam, 10) : 1`. -/
def argPage (pp : Option String) : Option Int :=
  match pp with
  | some s => if s ≠ "" then jsParseInt s else some 1
  | none => some 1

def argSize (ps : Option String) : Option Int :=
  match ps with
  | some s => if s ≠ "" then jsParseInt s else some 10
  | none => some 10

/-- The URL-parameter effect of the current `SearchContext`: duplicate
processing guard, state updates from `query`/`page`/`pageSize`, and the
one-shot replayed search (without navigation). -/
def urlEffect (st : SearchState) (search : String)
    (outcome : Except Unit SearchResponse) :
    SearchState × List ApiRequest × List String :=
  let queryParam := getParam search "query"
  let pageParam := getParam search "page"
  let pageSizeParam := getParam search "pageSize"
  if st.hasProcessedUrlParams ∧ queryParam = some st.lastSearchQuery then (st, [], [])
  else
    let st3 := applyPageSizeParam (applyPageParam (applyQueryParam st queryParam)
      pageParam) pageSizeParam
    match queryParam with
    | some qp =>
      if qp ≠ "" ∧ ¬st.hasProcessedUrlParams then
        performSearchInternal { st3 with hasProcessedUrlParams := true } qp
          (argPage pageParam) (argSize pageSizeParam) false outcome
      else (st3, [], [])
    | none => (st3, [], [])

/-- The states reachable through initialisation, the URL-parameter effect and
`performSearch` (the operations named by the page invariant). -/
inductive Reachable : SearchState → Prop
  | init : Reachable initState
  | url {st : SearchState} (s : String) (outcome : Except Unit SearchResponse) :
      Reachable st → Reachable (urlEffect st s outcome).1
  | search {st : SearchState} (q : String) (page size : Option Int)
      (outcome : Except Unit SearchResponse) :
      Reachable st → Reachable (performSearch st q page size outcome).1

/-- A response whose `page` field (after `|| 1`) cannot go below 1. -/
def goodOutcome (outcome : Except Unit SearchResponse) : Prop :=
  ∀ d, outcome = Except.ok d → 0 ≤ d.page.getD 0

/-- A URL whose `page` parameter (if present and non-empty) parses to a
nonnegative number. -/
def goodPageParam (s : String) : Prop :=
  ∀ ps, getParam s "page" = some ps → ps ≠ "" → 0 ≤ (jsParseInt ps).getD 0

/-- Reachability when every page value entering the coordinator is
nonnegative. -/
inductive ReachableGood : SearchState → Prop
  | init : ReachableGood initState
  | url {st : SearchState} (s : String) (outcome : Except Unit SearchResponse) :
      goodPageParam s → goodOutcome outcome →
      ReachableGood st → ReachableGood (urlEffect st s outcome).1
  | search {st : SearchState} (q : String) (page size : Option Int)
      (outcome : Except Unit SearchResponse) :
      goodOutcome outcome →
      ReachableGood st → ReachableGood (performSearch st q page size outcome).1

/-! ## Basic lemmas about the extractor pipeline -/

theorem dropWhile_eq_cons_head_false {α : Type} {p : α → Bool} :
    ∀ (l : List α) {c : α} {r : List α}, l.dropWhile p = c :: r → p c = false := by
  intro l
  induction l with
  | nil => intro c r h; simp [List.dropWhile] at h
  | cons a t ih =>
    intro c r h
    rw [List.dropWhile_cons] at h
    by_cases hp : p a
    · rw [if_pos hp] at h; exact ih h
    · rw [if_neg hp] at h
      obtain ⟨rfl, -⟩ := List.cons.inj h
      exact Bool.of_not_eq_true hp

theorem mem_splitTermF_no_term :
    ∀ (fuel : Nat) (l : List Char), l.length ≤ fuel →
      ∀ p ∈ splitTermF fuel l, ∀ c ∈ p, isTermCh c = false := by
  intro fuel
  induction fuel with
  | zero =>
    intro l hl p hp c hc
    rw [Nat.le_zero, List.length_eq_zero] at hl
    subst hl
    simp [splitTermF] at hp
    subst hp
    simp at hc
  | succ n ih =>
    intro l hl p hp c hc
    simp only [splitTermF] at hp
    cases hr : l.dropWhile (fun c => !isTermCh c) with
    | nil =>
      rw [hr] at hp
      simp at hp
      subst hp
      have := List.mem_takeWhile_imp hc
      simpa using this
    | cons d r =>
      rw [hr] at hp
      rcases List.mem_cons.mp hp with rfl | hp'
      · have := List.mem_takeWhile_imp hc
        simpa using this
      · have hd : isTermCh d = true := by
          have := dropWhile_eq_cons_head_false l hr
          simpa using this
        have hsub1 : (l.dropWhile (fun c => !isTermCh c)).Sublist l :=
          List.dropWhile_sublist _
        have h1 : r.length + 1 ≤ l.length := by
          have := hsub1.length_le
          rw [hr] at this
          simpa using this
        have hsub2 : (r.dropWhile isTermCh).Sublist r := List.dropWhile_sublist _
        have hlen : ((d :: r).dropWhile isTermCh).length ≤ n := by
          rw [List.dropWhile_cons, if_pos hd]
          have h2 := hsub2.length_le
          omega
        exact ih _ hlen p hp' c hc

theorem mem_trimChars {c : Char} {l : List Char} (h : c ∈ trimChars l) : c ∈ l := by
  unfold trimChars at h
  rw [List.mem_reverse] at h
  have h1 : c ∈ (l.dropWhile isJsWs).reverse :=
    (List.dropWhile_sublist isJsWs).mem h
  rw [List.mem_reverse] at h1
  exact (List.dropWhile_sublist isJsWs).mem h1

theorem passesChecks_length {t : List Char} (h : passesChecks t = true) : 20 ≤ t.length := by
  simp only [passesChecks, Bool.and_eq_true, decide_eq_true_eq] at h
  exact h.1.1.1.1.1.1.1

theorem trim_reverse_struct (p : List Char) (h20 : 20 ≤ (trimChars p).length) :
    ∃ c r, (trimChars p).reverse = c :: r ∧ isJsWs c = false := by
  have hrev : (trimChars p).reverse = (p.dropWhile isJsWs).reverse.dropWhile isJsWs := by
    unfold trimChars
    rw [List.reverse_reverse]
  cases hc : (p.dropWhile isJsWs).reverse.dropWhile isJsWs with
  | nil =>
    exfalso
    rw [hc] at hrev
    have : (trimChars p).length = 0 := by
      rw [← List.length_reverse, hrev]
      rfl
    omega
  | cons c r =>
    refine ⟨c, r, by rw [hrev, hc], ?_⟩
    exact dropWhile_eq_cons_head_false _ hc

theorem stripTrailDot_eq_self {l : List Char} {c : Char} {r : List Char}
    (h : l.reverse = c :: r) (hws : isJsWs c = false) (hdot : c ≠ '.') :
    stripTrailDot l = l := by
  unfold stripTrailDot
  rw [h, List.dropWhile_cons, hws]
  simp only [Bool.false_eq_true, if_false]
  split
  · next heq =>
    exfalso
    exact hdot (List.cons.inj heq).1
  · rfl

theorem joinSep_cons_cons (x y : List Char) (L : List (List Char)) :
    joinSep (x :: y :: L) = x ++ ('.' :: ' ' :: []) ++ joinSep (y :: L) := rfl

theorem joinSep_concat (t : List Char) :
    ∀ (L : List (List Char)), L ≠ [] →
      joinSep (L ++ [t]) = joinSep L ++ ('.' :: ' ' :: []) ++ t := by
  intro L
  induction L with
  | nil => intro h; exact absurd rfl h
  | cons x L' ih =>
    intro _
    cases L' with
    | nil => simp [joinSep]
    | cons y L'' =>
      have h2 : (x :: y :: L'') ++ [t] = x :: ((y :: L'') ++ [t]) := by simp
      have h3 : (y :: L'') ++ [t] = y :: (L'' ++ [t]) := by simp
      rw [h2, h3, joinSep_cons_cons, ← h3, ih (by simp), joinSep_cons_cons]
      simp [List.append_assoc]

theorem selOf_mem {text : List Char} {n : Nat} {s : List Char} (hs : s ∈ selOf text n) :
    passesChecks s = true ∧ ∀ c ∈ s, isTermCh c = false := by
  obtain ⟨p, hp, rfl⟩ := List.mem_map.mp hs
  have hpmem : p ∈ sentencesOf text := List.mem_of_mem_take hp
  obtain ⟨hsplit, hfilt⟩ := List.mem_filter.mp hpmem
  refine ⟨hfilt, fun c hc => ?_⟩
  exact mem_splitTermF_no_term _ _ le_rfl p hsplit c (mem_trimChars hc)

theorem selOf_last_struct {text : List Char} {n : Nat} {t : List Char}
    (ht : t ∈ selOf text n) :
    ∃ c r, t.reverse = c :: r ∧ isJsWs c = false ∧ c ≠ '.' := by
  obtain ⟨hpass, hterm⟩ := selOf_mem ht
  obtain ⟨p, hp, rfl⟩ := List.mem_map.mp ht
  obtain ⟨c, r, hrev, hws⟩ := trim_reverse_struct p (passesChecks_length hpass)
  refine ⟨c, r, hrev, hws, ?_⟩
  intro hc
  have hcmem : c ∈ trimChars p := by
    rw [← List.mem_reverse, hrev]; simp
  have := hterm c hcmem
  rw [hc] at this
  simp [isTermCh] at this

theorem extractChars_eq_join (text : List Char) (htext : text ≠ []) (n : Nat) :
    extractChars text n = joinSep (selOf text n) ++ ['.'] := by
  unfold extractChars
  rw [if_neg (by simpa [List.isEmpty_iff] using htext)]
  show stripTrailDot (joinSep (selOf text n)) ++ ['.'] = _
  congr 1
  rcases List.eq_nil_or_concat (selOf text n) with hnil | ⟨L, t, hcat⟩
  · rw [hnil]; rfl
  · rw [List.concat_eq_append] at hcat
    have htmem : t ∈ selOf text n := by rw [hcat]; simp
    obtain ⟨c, r, hrev, hws, hdot⟩ := selOf_last_struct htmem
    rcases L with _ | ⟨x, L'⟩
    · rw [hcat]
      simp only [List.nil_append]
      exact stripTrailDot_eq_self (l := joinSep [t]) (by simpa [joinSep] using hrev) hws hdot
    · rw [hcat, joinSep_concat t (x :: L') (by simp)]
      have hrev2 : ((joinSep (x :: L') ++ ('.' :: ' ' :: [])) ++ t).reverse =
          c :: (r ++ (joinSep (x :: L') ++ ('.' :: ' ' :: [])).reverse) := by
        rw [List.reverse_append, hrev]
        simp
      exact stripTrailDot_eq_self hrev2 hws hdot

theorem joinSep_take_isPrefix : ∀ (L : List (List Char)) (m : Nat),
    joinSep (L.take m) <+: joinSep L := by
  intro L
  induction L with
  | nil => intro m; simp
  | cons x L' ih =>
    intro m
    cases m with
    | zero => exact List.nil_prefix
    | succ k =>
      cases L' with
      | nil =>
        show joinSep (x :: List.take k []) <+: joinSep [x]
        rw [List.take_nil]
      | cons y L'' =>
        cases k with
        | zero =>
          show (x : List Char) <+: joinSep (x :: y :: L'')
          rw [joinSep_cons_cons, List.append_assoc]
          exact List.prefix_append x _
        | succ j =>
          show joinSep (x :: y :: L''.take j) <+: joinSep (x :: y :: L'')
          rw [joinSep_cons_cons, joinSep_cons_cons, List.append_assoc, List.append_assoc]
          refine (List.prefix_append_right_inj x).mpr ?_
          refine (List.prefix_append_right_inj _).mpr ?_
          have := ih (j + 1)
          simpa [List.take] using this

/-- C1: for every input text and every requested count `n`, the output of
`extractTopSentences` is assembled from at most `n` sentences, each of which
satisfies all five filter predicates of the readability heuristic: minimum
length 20, letters-to-length ratio at least 0.6, at most 3 markup punctuation
characters, numbers-and-symbols at most 30 percent of the length, and the
presence of a common English function word. -/
theorem extract_bounded_and_filtered (text : String) (n : Nat) (h : text ≠ "") :
    ∃ sel : List (List Char),
      sel.length ≤ n ∧
      (∀ s ∈ sel, 20 ≤ s.length ∧ 3 * s.length ≤ 5 * letterCnt s ∧ markupCnt s ≤ 3 ∧
        10 * numSymCnt s ≤ 3 * s.length ∧ hasCommonWord s = true) ∧
      (extractTopSentences text n).data = joinSep sel ++ ['.'] := by
  have hdata : text.data ≠ [] := by
    intro hd
    apply h
    apply String.ext
    rw [hd]
  refine ⟨selOf text.data n, ?_, ?_, ?_⟩
  · unfold selOf
    rw [List.length_map]
    exact List.length_take_le n _
  · intro s hs
    have hp := (selOf_mem hs).1
    simp only [passesChecks, Bool.and_eq_true, decide_eq_true_eq] at hp
    exact ⟨hp.1.1.1.1.1.1.1, hp.1.1.1.1.1.1.2, hp.1.1.1.1.1.2, hp.1.1.1.1.2, hp.2⟩
  · exact extractChars_eq_join text.data hdata n

theorem extract_bounded_and_filtered_witness :
    ("hi" : String) ≠ "" ∧
    ∃ sel : List (List Char),
      sel.length ≤ 3 ∧
      (∀ s ∈ sel, 20 ≤ s.length ∧ 3 * s.length ≤ 5 * letterCnt s ∧ markupCnt s ≤ 3 ∧
        10 * numSymCnt s ≤ 3 * s.length ∧ hasCommonWord s = true) ∧
      (extractTopSentences "hi" 3).data = joinSep sel ++ ['.'] :=
  ⟨by decide, extract_bounded_and_filtered "hi" 3 (by decide)⟩

/-- C9: `extractTopSentences` returns the empty string (no trailing period)
for empty input, and returns exactly `"."` for non-empty input in which no
sentence candidate passes all filters. -/
theorem extract_empty_and_dot :
    (∀ n : Nat, extractTopSentences "" n = "") ∧
    (∀ (text : String) (n : Nat), text ≠ "" → sentencesOf text.data = [] →
      extractTopSentences text n = ".") := by
  constructor
  · intro n
    rfl
  · intro text n htext hsent
    have hdata : text.data ≠ [] := by
      intro hd
      apply htext
      apply String.ext
      rw [hd]
    have hj : extractChars text.data n = ['.'] := by
      rw [extractChars_eq_join text.data hdata n]
      unfold selOf
      rw [hsent]
      simp [joinSep]
    show String.mk (extractChars text.data n) = "."
    rw [hj]

theorem extract_empty_and_dot_witness :
    (("hi" : String) ≠ "" ∧ sentencesOf "hi".data = []) ∧
    extractTopSentences "hi" 3 = "." :=
  ⟨⟨by decide, by decide⟩, extract_empty_and_dot.2 "hi" 3 (by decide) (by decide)⟩

/-- C10: increasing the requested sentence count only extends the summary:
for `m ≤ n`, the output for `m` with its trailing period removed is a prefix
of the output for `n`. -/
theorem extract_count_monotone (text : String) (m n : Nat) (h : m ≤ n) :
    (dropTrailPeriod (extractTopSentences text m)).data <+: (extractTopSentences text n).data := by
  by_cases htext : text.data = []
  · have he : ∀ k, extractChars text.data k = [] := by
      intro k
      rw [htext]
      rfl
    show (dropTrailPeriod (String.mk (extractChars text.data m))).data <+:
      (String.mk (extractChars text.data n)).data
    rw [he m, he n]
    simp [dropTrailPeriod]
  · have hm := extractChars_eq_join text.data htext m
    have hn := extractChars_eq_join text.data htext n
    have hsel : selOf text.data m = (selOf text.data n).take m := by
      unfold selOf
      rw [← List.map_take, List.take_take, min_eq_left h]
    have h1 : (dropTrailPeriod (extractTopSentences text m)).data = joinSep (selOf text.data m) := by
      unfold dropTrailPeriod
      show (if (extractChars text.data m).getLast? = some '.' then
          String.mk (extractChars text.data m).dropLast
        else String.mk (extractChars text.data m)).data = _
      rw [hm, List.getLast?_concat, if_pos rfl]
      show (joinSep (selOf text.data m) ++ ['.']).dropLast = joinSep (selOf text.data m)
      exact List.dropLast_concat
    show (dropTrailPeriod (extractTopSentences text m)).data <+: extractChars text.data n
    rw [h1, hn, hsel]
    exact (joinSep_take_isPrefix _ m).trans (List.prefix_append _ _)

theorem extract_count_monotone_witness :
    1 ≤ 2 ∧
    (dropTrailPeriod (extractTopSentences "ab" 1)).data <+: (extractTopSentences "ab" 2).data :=
  ⟨by decide, extract_count_monotone "ab" 1 2 (by decide)⟩

/-! ## Infix decomposition lemmas -/

theorem prefix_cons_cases {α : Type} {p : List α} {c : α} {l : List α} (h : p <+: c :: l) :
    p = [] ∨ ∃ p', p = c :: p' ∧ p' <+: l := by
  match p, h with
  | [], _ => exact Or.inl rfl
  | x :: p', h =>
    obtain ⟨t, ht⟩ := h
    rw [List.cons_append] at ht
    obtain ⟨rfl, h2⟩ := List.cons.inj ht
    exact Or.inr ⟨p', rfl, ⟨t, h2⟩⟩

theorem prefix_append_split {α : Type} {p a b : List α} (h : p <+: a ++ b) :
    p <+: a ∨ ∃ q, p = a ++ q ∧ q <+: b := by
  induction a generalizing p with
  | nil => exact Or.inr ⟨p, rfl, by simpa using h⟩
  | cons x a' ih =>
    rcases prefix_cons_cases h with rfl | ⟨p', rfl, hp'⟩
    · exact Or.inl List.nil_prefix
    · rcases ih hp' with h1 | ⟨q, rfl, hq⟩
      · exact Or.inl (List.cons_prefix_cons.mpr ⟨rfl, h1⟩)
      · exact Or.inr ⟨q, by simp, hq⟩

theorem infix_append_cases {α : Type} {p a b : List α} (h : p <:+: a ++ b) :
    p <:+: a ∨ p <:+: b ∨
      ∃ k, 0 < k ∧ k < p.length ∧ (p.take k) <:+ a ∧ (p.drop k) <+: b := by
  induction a with
  | nil => exact Or.inr (Or.inl (by simpa using h))
  | cons x a' ih =>
    rw [List.cons_append] at h
    rcases List.infix_cons_iff.mp h with hpre | hinf
    · rcases prefix_append_split (a := x :: a') (b := b) hpre with h1 | ⟨q, rfl, hq⟩
      · exact Or.inl h1.isInfix
      · by_cases hqnil : q = []
        · subst hqnil
          exact Or.inl (by simp)
        · refine Or.inr (Or.inr ⟨(x :: a').length, by simp, ?_, ?_, ?_⟩)
          · rw [List.length_append]
            have := List.length_pos.mpr hqnil
            omega
          · simp [List.take_left]
          · simpa [List.drop_left] using hq
    · rcases ih hinf with h1 | h2 | ⟨k, hk0, hkl, hks, hkp⟩
      · exact Or.inl (List.infix_cons h1)
      · exact Or.inr (Or.inl h2)
      · exact Or.inr (Or.inr ⟨k, hk0, hkl, hks.trans (List.suffix_cons x a'), hkp⟩)

/-! ## The rewriting relation covers the sanitizer passes -/

theorem scanToPat_spec {pat : List Char} {dotAll : Bool} :
    ∀ {fuel : Nat} {l pre after : List Char},
      scanToPat pat dotAll fuel l = some (pre, after) → l = pre ++ pat ++ after := by
  intro fuel
  induction fuel with
  | zero => intro l pre after h; simp [scanToPat] at h
  | succ n ih =>
    intro l pre after h
    simp only [scanToPat] at h
    by_cases hp : pat.isPrefixOf l
    · rw [if_pos hp] at h
      obtain ⟨h1, h2⟩ := Prod.mk.inj (Option.some.inj h)
      obtain ⟨t, rfl⟩ := List.isPrefixOf_iff_prefix.mp hp
      rw [← h1, ← h2, List.drop_left]
      simp
    · rw [if_neg hp] at h
      cases l with
      | nil => simp at h
      | cons c rest =>
        replace h : (if (!dotAll && isLineTerm c) = true then (none : Option (List Char × List Char))
            else
              match scanToPat pat dotAll n rest with
              | some (pre, after) => some (c :: pre, after)
              | none => none) = some (pre, after) := h
        by_cases hnl : (!dotAll && isLineTerm c) = true
        · rw [if_pos hnl] at h; simp at h
        · rw [if_neg hnl] at h
          cases hs : scanToPat pat dotAll n rest with
          | none => rw [hs] at h; simp at h
          | some pq =>
            obtain ⟨pre', after'⟩ := pq
            rw [hs] at h
            obtain ⟨h1, h2⟩ := Prod.mk.inj (Option.some.inj h)
            rw [← h1, ← h2]
            have := ih hs
            rw [List.cons_append, List.cons_append]
            rw [← this]

theorem Rw.copies {R : List Char → List Char → Prop} (xs : List Char) {t u : List Char}
    (h : Rw R t u) : Rw R (xs ++ t) (xs ++ u) := by
  induction xs with
  | nil => simpa using h
  | cons c cs ih => exact Rw.copy c ih

theorem rw_scanRewrite_tag {R : List Char → List Char → Prop}
    {openPat closePat pre post : List Char}
    (hopen : R openPat pre) (hclose : R closePat post) (hne : openPat ≠ []) :
    ∀ (fuel : Nat) (l : List Char), l.length ≤ fuel →
      Rw R l (scanRewrite (tagStep openPat closePat pre post) fuel l) := by
  intro fuel
  induction fuel with
  | zero =>
    intro l hl
    rw [Nat.le_zero, List.length_eq_zero] at hl
    subst hl
    exact Rw.nil
  | succ n ih =>
    intro l hl
    cases l with
    | nil => exact Rw.nil
    | cons c rest =>
      cases hstep : tagStep openPat closePat pre post (c :: rest) with
      | none =>
        have hout : scanRewrite (tagStep openPat closePat pre post) (n + 1) (c :: rest) =
            c :: scanRewrite (tagStep openPat closePat pre post) n rest := by
          simp only [scanRewrite, hstep]
        rw [hout]
        exact Rw.copy c (ih rest (by simp at hl; omega))
      | some pr =>
        obtain ⟨rep, after⟩ := pr
        have hout : scanRewrite (tagStep openPat closePat pre post) (n + 1) (c :: rest) =
            rep ++ scanRewrite (tagStep openPat closePat pre post) n after := by
          simp only [scanRewrite, hstep]
        have hstep0 := hstep
        unfold tagStep at hstep0
        by_cases hpre : openPat.isPrefixOf (c :: rest)
        · rw [if_pos hpre] at hstep0
          cases hscan : scanToPat closePat false ((c :: rest).length + 1)
              ((c :: rest).drop openPat.length) with
          | none => rw [hscan] at hstep0; simp at hstep0
          | some pq =>
            obtain ⟨inner, after'⟩ := pq
            rw [hscan] at hstep0
            obtain ⟨h1, h2⟩ := Prod.mk.inj (Option.some.inj hstep0)
            obtain ⟨t, ht⟩ := List.isPrefixOf_iff_prefix.mp hpre
            have hts := scanToPat_spec hscan
            rw [← ht, List.drop_left] at hts
            have hdecomp : (c :: rest) = openPat ++ (inner ++ (closePat ++ after')) := by
              rw [← ht, hts]
              simp [List.append_assoc]
            have hlen' : after'.length ≤ n := by
              have hlc := congrArg List.length hdecomp
              simp only [List.length_cons, List.length_append] at hlc
              have hop : 0 < openPat.length := List.length_pos.mpr hne
              simp only [List.length_cons] at hl
              omega
            have hrec := ih after' hlen'
            have hrw : Rw R (c :: rest)
                (pre ++ (inner ++ (post ++ scanRewrite (tagStep openPat closePat pre post) n after'))) := by
              rw [hdecomp]
              exact Rw.rewriteRule hopen (Rw.copies inner (Rw.rewriteRule hclose hrec))
            rw [hout, ← h1, ← h2]
            simpa [List.append_assoc] using hrw
        · rw [if_neg hpre] at hstep0; simp at hstep0

theorem quoteStep_eq_tagStep (q pre post : List Char) :
    quoteStep q pre post = tagStep q q pre post := by
  funext l
  rfl

theorem rw_scanRewrite_quote {R : List Char → List Char → Prop} {q pre post : List Char}
    (hopen : R q pre) (hclose : R q post) (hne : q ≠ []) (fuel : Nat) (l : List Char)
    (hl : l.length ≤ fuel) :
    Rw R l (scanRewrite (quoteStep q pre post) fuel l) := by
  rw [quoteStep_eq_tagStep]
  exact rw_scanRewrite_tag hopen hclose hne fuel l hl

theorem rw_scanRewrite_para {R : List Char → List Char → Prop}
    (hpara : ∀ k, 2 ≤ k → R (List.replicate k '\n') "</p><p>".toList) :
    ∀ (fuel : Nat) (l : List Char), l.length ≤ fuel →
      Rw R l (scanRewrite paraStep fuel l) := by
  intro fuel
  induction fuel with
  | zero =>
    intro l hl
    rw [Nat.le_zero, List.length_eq_zero] at hl
    subst hl
    exact Rw.nil
  | succ n ih =>
    intro l hl
    cases l with
    | nil => exact Rw.nil
    | cons c rest =>
      cases hstep : paraStep (c :: rest) with
      | none =>
        have hout : scanRewrite paraStep (n + 1) (c :: rest) =
            c :: scanRewrite paraStep n rest := by
          simp only [scanRewrite, hstep]
        rw [hout]
        exact Rw.copy c (ih rest (by simp at hl; omega))
      | some pr =>
        obtain ⟨rep, after⟩ := pr
        have hout : scanRewrite paraStep (n + 1) (c :: rest) =
            rep ++ scanRewrite paraStep n after := by
          simp only [scanRewrite, hstep]
        have hstep0 := hstep
        unfold paraStep at hstep0
        cases rest with
        | nil => exact Option.noConfusion hstep0
        | cons c2 rest' =>
          replace hstep0 : (if c = '\n' ∧ c2 = '\n' then
              some ("</p><p>".toList, (c :: c2 :: rest').dropWhile (· == '\n'))
            else none) = some (rep, after) := hstep0
          by_cases hcc : c = '\n' ∧ c2 = '\n'
          · rw [if_pos hcc] at hstep0
            obtain ⟨rfl, rfl⟩ := hcc
            obtain ⟨h1, h2⟩ := Prod.mk.inj (Option.some.inj hstep0)
            set tw := ('\n' :: '\n' :: rest').takeWhile (· == '\n') with htw
            have hrepl : tw = List.replicate tw.length '\n' := by
              apply List.eq_replicate_of_mem
              intro b hb
              have := List.mem_takeWhile_imp hb
              simpa using this
            have htw2 : 2 ≤ tw.length := by
              rw [htw]
              simp [List.takeWhile]
            have hsplit : ('\n' :: '\n' :: rest') = tw ++ ('\n' :: '\n' :: rest').dropWhile (· == '\n') := by
              rw [htw]
              exact (List.takeWhile_append_dropWhile _ _).symm
            have hlen' : (('\n' :: '\n' :: rest').dropWhile (· == '\n')).length ≤ n := by
              have hlc := congrArg List.length hsplit
              rw [List.length_append] at hlc
              simp only [List.length_cons] at hlc hl
              omega
            have hrec := ih _ hlen'
            have hrw := Rw.rewriteRule (hpara tw.length htw2) hrec
            rw [← hrepl] at hrw
            rw [← hsplit] at hrw
            rw [hout, ← h1, ← h2]
            exact hrw
          · rw [if_neg hcc] at hstep0
            exact Option.noConfusion hstep0

/-! ## Pattern preservation through a rewriting pass -/

theorem rw_no_occ {P : List Char} (hP2 : 2 ≤ P.length) {R : List Char → List Char → Prop}
    (hsafe : ruleSafe P R) :
    ∀ {t u : List Char}, Rw R t u → ¬(P <:+: t) →
      ¬(P <:+: u) ∧ (∀ k, k < P.length → 0 < k → (P.drop k) <+: u → (P.drop k) <+: t) := by
  intro t u hrw
  induction hrw with
  | nil => intro h; exact ⟨h, fun _ _ _ hp => hp⟩
  | @copy c t₀ u₀ hrw ih =>
    intro hnt
    have hnt' : ¬(P <:+: t₀) := fun hh => hnt (List.infix_cons hh)
    obtain ⟨ih1, ih2⟩ := ih hnt'
    constructor
    · intro hu
      rcases List.infix_cons_iff.mp hu with hpre | hinf
      · rcases prefix_cons_cases hpre with hPnil | ⟨P', hP', hP'u⟩
        · rw [hPnil] at hP2; simp at hP2
        · have hdrop1 : P.drop 1 <+: u₀ := by
            rw [hP']
            exact hP'u
          have hPd := ih2 1 (by omega) (by omega) hdrop1
          rw [hP'] at hPd
          simp only [List.drop_succ_cons, List.drop_zero] at hPd
          apply hnt
          have hPt : P <+: c :: t₀ := by
            rw [hP']
            exact List.cons_prefix_cons.mpr ⟨rfl, hPd⟩
          exact hPt.isInfix
      · exact ih1 hinf
    · intro k hk hk0 hdrop
      rcases prefix_cons_cases hdrop with hnil | ⟨q', hq', hq'u⟩
      · rw [hnil]
        exact List.nil_prefix
      · have hq'd : P.drop (k + 1) = q' := by
          have h := congrArg List.tail hq'
          rw [List.tail_drop] at h
          simpa using h
        by_cases hk1 : k + 1 < P.length
        · have hP1 := ih2 (k + 1) hk1 (by omega) (by rw [hq'd]; exact hq'u)
          rw [hq']
          exact List.cons_prefix_cons.mpr ⟨rfl, by rw [← hq'd]; exact hP1⟩
        · have hqnil : q' = [] := by
            rw [← hq'd]
            exact List.drop_eq_nil_of_le (by omega)
          rw [hq', hqnil]
          exact List.cons_prefix_cons.mpr ⟨rfl, List.nil_prefix⟩
  | @rewriteRule m rep t₀ u₀ hR hrw ih =>
    intro hnt
    obtain ⟨hm, hrepne, hlen, hrinf, hrk⟩ := hsafe _ _ hR
    have hnt0 : ¬(P <:+: t₀) := by
      intro hh
      obtain ⟨s, e, hse⟩ := hh
      exact hnt ⟨m ++ s, e, by rw [← hse]; simp [List.append_assoc]⟩
    obtain ⟨ih1, ih2⟩ := ih hnt0
    refine ⟨?_, ?_⟩
    · intro hu
      rcases infix_append_cases hu with h1 | h2 | ⟨k, hk0, hkP, hks, hkp⟩
      · exact hrinf h1
      · exact ih1 h2
      · exact (hrk k hkP hk0).1 hks
    · intro k hk hk0 hdrop
      rcases prefix_append_split hdrop with h1 | ⟨q, hq, hqb⟩
      · exact absurd h1 ((hrk k hk hk0).2)
      · exfalso
        have hlq := congrArg List.length hq
        rw [List.length_append, List.length_drop] at hlq
        omega

/-! ## Rule safety for the three residual-markup patterns -/

theorem prule_cases {m rep : List Char} (h : PRule m rep) :
    (m = "<mark>".toList ∧ rep = markOpenRep) ∨ (m = "</mark>".toList ∧ rep = markCloseRep) ∨
    (m = "'''".toList ∧ rep = "<strong>".toList) ∨ (m = "'''".toList ∧ rep = "</strong>".toList) ∨
    (m = "''".toList ∧ rep = "<em>".toList) ∨ (m = "''".toList ∧ rep = "</em>".toList) ∨
    ∃ k, 2 ≤ k ∧ m = List.replicate k '\n' ∧ rep = "</p><p>".toList := by
  cases h with
  | mark => exact Or.inl ⟨rfl, rfl⟩
  | markClose => exact Or.inr (Or.inl ⟨rfl, rfl⟩)
  | bold => exact Or.inr (Or.inr (Or.inl ⟨rfl, rfl⟩))
  | boldClose => exact Or.inr (Or.inr (Or.inr (Or.inl ⟨rfl, rfl⟩)))
  | italic => exact Or.inr (Or.inr (Or.inr (Or.inr (Or.inl ⟨rfl, rfl⟩))))
  | italicClose => exact Or.inr (Or.inr (Or.inr (Or.inr (Or.inr (Or.inl ⟨rfl, rfl⟩)))))
  | para k hk => exact Or.inr (Or.inr (Or.inr (Or.inr (Or.inr (Or.inr ⟨k, hk, rfl, rfl⟩)))))

/-- The decidable part of `ruleSafe` for a concrete pattern and replacement. -/
abbrev repSafe (P rep : List Char) : Prop :=
  rep ≠ [] ∧ P.length ≤ rep.length ∧ ¬(P <:+: rep) ∧
    (∀ k, k < P.length → 0 < k → ¬((P.take k) <:+ rep) ∧ ¬((P.drop k) <+: rep))

theorem ruleSafe_of_repSafe {P : List Char}
    (h1 : repSafe P markOpenRep) (h2 : repSafe P markCloseRep)
    (h3 : repSafe P "<strong>".toList) (h4 : repSafe P "</strong>".toList)
    (h5 : repSafe P "<em>".toList) (h6 : repSafe P "</em>".toList)
    (h7 : repSafe P "</p><p>".toList) :
    ruleSafe P PRule := by
  intro m rep hR
  rcases prule_cases hR with ⟨rfl, rfl⟩ | ⟨rfl, rfl⟩ | ⟨rfl, rfl⟩ | ⟨rfl, rfl⟩ |
    ⟨rfl, rfl⟩ | ⟨rfl, rfl⟩ | ⟨k, hk, rfl, rfl⟩
  · exact ⟨by simp, h1.1, h1.2.1, h1.2.2.1, h1.2.2.2⟩
  · exact ⟨by simp, h2.1, h2.2.1, h2.2.2.1, h2.2.2.2⟩
  · exact ⟨by simp, h3.1, h3.2.1, h3.2.2.1, h3.2.2.2⟩
  · exact ⟨by simp, h4.1, h4.2.1, h4.2.2.1, h4.2.2.2⟩
  · exact ⟨by simp, h5.1, h5.2.1, h5.2.2.1, h5.2.2.2⟩
  · exact ⟨by simp, h6.1, h6.2.1, h6.2.2.1, h6.2.2.2⟩
  · refine ⟨?_, h7.1, h7.2.1, h7.2.2.1, h7.2.2.2⟩
    intro hnil
    have := congrArg List.length hnil
    simp at this
    omega
theorem wrapP_no_occ {P : List Char}
    (hpa : ¬(P <:+: "<p>".toList)) (hpb : ¬(P <:+: "</p>".toList))
    (hka : ∀ k, k < P.length → 0 < k → ¬((P.take k) <:+ "<p>".toList))
    (hkb : ∀ k, k < P.length → 0 < k → ¬((P.drop k) <+: "</p>".toList))
    {a : List Char} (ha : ¬(P <:+: a)) : ¬(P <:+: wrapP a) := by
  unfold wrapP
  by_cases hw : "<p>".toList.isPrefixOf a
  · rw [if_pos hw]; exact ha
  · rw [if_neg hw]
    intro h
    rcases infix_append_cases h with g1 | g2 | ⟨k, hk0, hkP, hks, hkp⟩
    · rcases infix_append_cases g1 with g1a | g1b | ⟨k, hk0, hkP, hks, hkp⟩
      · exact hpa g1a
      · exact ha g1b
      · exact hka k hkP hk0 hks
    · exact hpb g2
    · exact hkb k hkP hk0 hkp

theorem parseMediaWikiChars_no_occ {P : List Char} (hP2 : 2 ≤ P.length)
    (hsafe : ruleSafe P PRule)
    (hpa : ¬(P <:+: "<p>".toList)) (hpb : ¬(P <:+: "</p>".toList))
    (hka : ∀ k, k < P.length → 0 < k → ¬((P.take k) <:+ "<p>".toList))
    (hkb : ∀ k, k < P.length → 0 < k → ¬((P.drop k) <+: "</p>".toList))
    {l : List Char} (hl : ¬(P <:+: l)) :
    ¬(P <:+: parseMediaWikiChars l) := by
  have f1 := (rw_no_occ hP2 hsafe
    (rw_scanRewrite_tag PRule.mark PRule.markClose (by simp) _ l le_rfl) hl).1
  have f2 := (rw_no_occ hP2 hsafe
    (rw_scanRewrite_quote PRule.bold PRule.boldClose (by simp) _ _ le_rfl) f1).1
  have f3 := (rw_no_occ hP2 hsafe
    (rw_scanRewrite_quote PRule.italic PRule.italicClose (by simp) _ _ le_rfl) f2).1
  have f4 := (rw_no_occ hP2 hsafe
    (rw_scanRewrite_para (fun k hk => PRule.para k hk) _ _ le_rfl) f3).1
  exact wrapP_no_occ hpa hpb hka hkb f4

set_option maxRecDepth 8000 in
/-- C2 is false as stated: `parseMediaWikiText` strips none of the wiki-markup
openers.  On the well-formed wiki input `"{{x}} [[y]] <ref>z</ref>"` its output
still contains `{{`, `[[` and `<ref`. -/
theorem parseMediaWikiText_keeps_residual_markup :
    "\x7b\x7b".toList <:+: (parseMediaWikiText "{{x}} [[y]] <ref>z</ref>").data ∧
    "[[".toList <:+: (parseMediaWikiText "{{x}} [[y]] <ref>z</ref>").data ∧
    "<ref".toList <:+: (parseMediaWikiText "{{x}} [[y]] <ref>z</ref>").data := by
  refine ⟨?_, ?_, ?_⟩ <;> decide

/-- C2 (amended): `parseMediaWikiText` introduces no `{{`, `[[` or `<ref`: for
every input free of these three sequences, the output is free of them as well
(the stripping of wiki markup is performed by `extractTopSentences`, which runs
before the sanitizer in the display pipeline). -/
theorem parseMediaWikiText_no_new_residual (s : String)
    (h1 : ¬("\x7b\x7b".toList <:+: s.data)) (h2 : ¬("[[".toList <:+: s.data))
    (h3 : ¬("<ref".toList <:+: s.data)) :
    ¬("\x7b\x7b".toList <:+: (parseMediaWikiText s).data) ∧
    ¬("[[".toList <:+: (parseMediaWikiText s).data) ∧
    ¬("<ref".toList <:+: (parseMediaWikiText s).data) := by
  refine ⟨?_, ?_, ?_⟩
  · exact parseMediaWikiChars_no_occ (by decide)
      (ruleSafe_of_repSafe (by decide) (by decide) (by decide) (by decide) (by decide)
        (by decide) (by decide))
      (by decide) (by decide) (by decide) (by decide) h1
  · exact parseMediaWikiChars_no_occ (by decide)
      (ruleSafe_of_repSafe (by decide) (by decide) (by decide) (by decide) (by decide)
        (by decide) (by decide))
      (by decide) (by decide) (by decide) (by decide) h2
  · exact parseMediaWikiChars_no_occ (by decide)
      (ruleSafe_of_repSafe (by decide) (by decide) (by decide) (by decide) (by decide)
        (by decide) (by decide))
      (by decide) (by decide) (by decide) (by decide) h3

theorem parseMediaWikiText_no_new_residual_witness :
    (¬("\x7b\x7b".toList <:+: ("hello ''world''" : String).data) ∧
      ¬("[[".toList <:+: ("hello ''world''" : String).data) ∧
      ¬("<ref".toList <:+: ("hello ''world''" : String).data)) ∧
    (¬("\x7b\x7b".toList <:+: (parseMediaWikiText "hello ''world''").data) ∧
      ¬("[[".toList <:+: (parseMediaWikiText "hello ''world''").data) ∧
      ¬("<ref".toList <:+: (parseMediaWikiText "hello ''world''").data)) :=
  ⟨⟨by decide, by decide, by decide⟩,
    parseMediaWikiText_no_new_residual "hello ''world''" (by decide) (by decide) (by decide)⟩

/-! ## Round trip of the URL value codec -/

theorem char_toNat_lt (c : Char) : c.toNat < 0x110000 := by
  have h := c.valid
  unfold UInt32.isValidChar Nat.isValidChar at h
  have he : c.toNat = c.val.toNat := rfl
  rw [he]
  rcases h with h | ⟨h1, h2⟩ <;> omega

theorem utf8Bytes_lt_256 (c : Char) : ∀ b ∈ utf8Bytes c, b < 256 := by
  intro b hb
  have hc := char_toNat_lt c
  unfold utf8Bytes at hb
  by_cases h1 : c.toNat < 0x80
  · simp only [h1, if_true] at hb
    simp at hb
    omega
  · by_cases h2 : c.toNat < 0x800
    · simp only [h1, h2, if_true, if_false] at hb
      simp at hb
      rcases hb with rfl | rfl <;> omega
    · by_cases h3 : c.toNat < 0x10000
      · simp only [h1, h2, h3, if_true, if_false] at hb
        simp at hb
        rcases hb with rfl | rfl | rfl <;> omega
      · simp only [h1, h2, h3, if_false] at hb
        simp at hb
        rcases hb with rfl | rfl | rfl | rfl <;> omega

theorem utf8Bytes_length_pos (c : Char) : 1 ≤ (utf8Bytes c).length := by
  unfold utf8Bytes
  by_cases h1 : c.toNat < 0x80 <;> by_cases h2 : c.toNat < 0x800 <;>
    by_cases h3 : c.toNat < 0x10000 <;> simp [h1, h2, h3]

theorem hexVal_hexDigit : ∀ n, n < 16 → isHexDigit (hexDigit n) = true ∧ hexVal (hexDigit n) = n := by
  decide

theorem hexDigit_isHex (n : Nat) : isHexDigit (hexDigit n) = true := by
  rcases Nat.lt_or_ge n 16 with h | h
  · exact (hexVal_hexDigit n h).1
  · have : hexDigit n = '0' := by
      unfold hexDigit
      rw [List.getD_eq_default]
      simpa using h
    rw [this]
    decide

theorem percentDecode_nil : ∀ f, percentDecode f [] = [] := by
  intro f; cases f <;> rfl

theorem utf8Decode_nil : ∀ f, utf8Decode f [] = [] := by
  intro f; cases f <;> rfl

theorem isUrlSafe_ascii {c : Char} (h : isUrlSafe c = true) : c.toNat < 0x80 := by
  unfold isUrlSafe at h
  simp only [Bool.or_eq_true, Bool.and_eq_true, decide_eq_true_eq] at h
  have hval : ∀ d : Char, c ≤ d → c.toNat ≤ d.toNat := by
    intro d hd
    exact hd
  rcases h with ((((((⟨-, h9⟩ | ⟨-, hZ⟩) | ⟨-, hz⟩) | rfl) | rfl) | rfl) | rfl)
  · have := hval _ h9; simp at this; omega
  · have := hval _ hZ; simp at this; omega
  · have := hval _ hz; simp at this; omega
  all_goals decide

theorem percentDecode_encBytes (bs : List Nat) (hbs : ∀ b ∈ bs, b < 256) :
    ∀ (rest : List Char) (F : Nat),
      percentDecode (bs.length + F) (bs.flatMap encByte ++ rest) = bs ++ percentDecode F rest := by
  induction bs with
  | nil => intro rest F; simp
  | cons b bs' ih =>
    intro rest F
    have hb : b < 256 := hbs b (by simp)
    have hbs' : ∀ x ∈ bs', x < 256 := fun x hx => hbs x (by simp [hx])
    have hhi := hexVal_hexDigit (b / 16) (by omega)
    have hlo := hexVal_hexDigit (b % 16) (by omega)
    have hfl : (b :: bs').length + F = (bs'.length + F) + 1 := by
      simp
      omega
    rw [hfl]
    have hlist : (b :: bs').flatMap encByte ++ rest =
        '%' :: hexDigit (b / 16) :: hexDigit (b % 16) :: (bs'.flatMap encByte ++ rest) := by
      simp [encByte]
    rw [hlist]
    show (if ('%' : Char) = '+' then _ else _) = _
    rw [if_neg (by decide), if_pos rfl]
    show (if (isHexDigit (hexDigit (b / 16)) && isHexDigit (hexDigit (b % 16))) = true
        then _ else _) = _
    rw [if_pos (by rw [hhi.1, hlo.1]; rfl)]
    have hval : 16 * hexVal (hexDigit (b / 16)) + hexVal (hexDigit (b % 16)) = b := by
      rw [hhi.2, hlo.2]
      omega
    rw [hval, ih hbs' rest F]
    simp

theorem percentDecode_encodeValue (l : List Char) :
    ∀ (rest : List Char) (F : Nat),
      percentDecode ((l.flatMap utf8Bytes).length + F) (encodeValue l ++ rest) =
        l.flatMap utf8Bytes ++ percentDecode F rest := by
  induction l with
  | nil => intro rest F; simp [encodeValue]
  | cons c l' ih =>
    intro rest F
    have hsplit : encodeValue (c :: l') ++ rest = encChar c ++ (encodeValue l' ++ rest) := by
      simp [encodeValue]
    rw [hsplit]
    have hbytes : (c :: l').flatMap utf8Bytes = utf8Bytes c ++ l'.flatMap utf8Bytes := by
      simp
    rw [hbytes]
    by_cases hsp : c = ' '
    · subst hsp
      have hb : utf8Bytes ' ' = [32] := by decide
      rw [hb]
      have hfl : ([32] ++ l'.flatMap utf8Bytes).length + F =
          ((l'.flatMap utf8Bytes).length + F) + 1 := by
        simp
        omega
      rw [hfl]
      have hchar : encChar ' ' = ['+'] := by decide
      rw [hchar]
      show (if ('+' : Char) = '+' then _ else _) = _
      rw [if_pos rfl]
      simp only [List.append_eq, List.nil_append]
      rw [ih rest F]
      simp
    · by_cases hsafe : isUrlSafe c = true
      · have hascii := isUrlSafe_ascii hsafe
        have hb : utf8Bytes c = [c.toNat] := by
          unfold utf8Bytes
          rw [if_pos hascii]
        rw [hb]
        have hfl : ([c.toNat] ++ l'.flatMap utf8Bytes).length + F =
            ((l'.flatMap utf8Bytes).length + F) + 1 := by
          simp
          omega
        rw [hfl]
        have hchar : encChar c = [c] := by
          unfold encChar
          rw [if_neg hsp, if_pos hsafe]
        rw [hchar]
        show (if c = '+' then _ else _) = _
        have hplus : c ≠ '+' := by
          intro he
          rw [he] at hsafe
          exact absurd hsafe (by decide)
        have hperc : c ≠ '%' := by
          intro he
          rw [he] at hsafe
          exact absurd hsafe (by decide)
        rw [if_neg hplus, if_neg hperc]
        simp only [List.append_eq, List.nil_append]
        rw [hb, ih rest F]
        simp
      · have hchar : encChar c = (utf8Bytes c).flatMap encByte := by
          unfold encChar
          rw [if_neg hsp, if_neg hsafe]
        rw [hchar]
        have hfl : (utf8Bytes c ++ l'.flatMap utf8Bytes).length + F =
            (utf8Bytes c).length + ((l'.flatMap utf8Bytes).length + F) := by
          simp
          omega
        rw [hfl, List.append_assoc]
        rw [percentDecode_encBytes (utf8Bytes c) (utf8Bytes_lt_256 c) _ _]
        rw [ih rest F]

theorem utf8Decode_cons (c : Char) (T : List Nat) (F : Nat) :
    utf8Decode (F + 1) (utf8Bytes c ++ T) = c :: utf8Decode F T := by
  have hc := char_toNat_lt c
  unfold utf8Bytes
  by_cases h1 : c.toNat < 0x80
  · rw [if_pos h1]
    show (if c.toNat < 0x80 then _ else _) = _
    rw [if_pos h1]
    rw [Char.ofNat_toNat]
    simp
  · rw [if_neg h1]
    by_cases h2 : c.toNat < 0x800
    · rw [if_pos h2]
      show (if 0xc0 + c.toNat / 64 < 0x80 then _ else _) = _
      rw [if_neg (by omega), if_neg (by omega), if_pos (by omega)]
      show (if (0x80 ≤ 0x80 + c.toNat % 64 && 0x80 + c.toNat % 64 < 0xc0) = true
          then _ else _) = _
      rw [if_pos (by simp; omega)]
      have hval : (0xc0 + c.toNat / 64 - 0xc0) * 64 + (0x80 + c.toNat % 64 - 0x80) = c.toNat := by
        omega
      rw [hval, Char.ofNat_toNat]
      simp
    · rw [if_neg h2]
      by_cases h3 : c.toNat < 0x10000
      · rw [if_pos h3]
        show (if 0xe0 + c.toNat / 4096 < 0x80 then _ else _) = _
        rw [if_neg (by omega), if_neg (by omega), if_neg (by omega), if_pos (by omega)]
        show (if ((0x80 ≤ 0x80 + c.toNat / 64 % 64 && 0x80 + c.toNat / 64 % 64 < 0xc0) &&
            (0x80 ≤ 0x80 + c.toNat % 64 && 0x80 + c.toNat % 64 < 0xc0)) = true
          then _ else _) = _
        rw [if_pos (by simp; omega)]
        have hval : (0xe0 + c.toNat / 4096 - 0xe0) * 4096 +
            (0x80 + c.toNat / 64 % 64 - 0x80) * 64 + (0x80 + c.toNat % 64 - 0x80) = c.toNat := by
          omega
        rw [hval, Char.ofNat_toNat]
        simp
      · rw [if_neg h3]
        show (if 0xf0 + c.toNat / 262144 < 0x80 then _ else _) = _
        rw [if_neg (by omega), if_neg (by omega), if_neg (by omega), if_neg (by omega),
          if_pos (by omega)]
        show (if ((0x80 ≤ 0x80 + c.toNat / 4096 % 64 && 0x80 + c.toNat / 4096 % 64 < 0xc0) &&
            ((0x80 ≤ 0x80 + c.toNat / 64 % 64 && 0x80 + c.toNat / 64 % 64 < 0xc0) &&
              (0x80 ≤ 0x80 + c.toNat % 64 && 0x80 + c.toNat % 64 < 0xc0))) = true
          then _ else _) = _
        rw [if_pos (by simp; omega)]
        have hval : (0xf0 + c.toNat / 262144 - 0xf0) * 262144 +
            (0x80 + c.toNat / 4096 % 64 - 0x80) * 4096 +
            (0x80 + c.toNat / 64 % 64 - 0x80) * 64 + (0x80 + c.toNat % 64 - 0x80) = c.toNat := by
          omega
        rw [hval, Char.ofNat_toNat]
        simp

theorem utf8Decode_flat : ∀ (l : List Char) (F : Nat), l.length ≤ F →
    utf8Decode F (l.flatMap utf8Bytes) = l := by
  intro l
  induction l with
  | nil => intro F _; simp [utf8Decode_nil]
  | cons c l' ih =>
    intro F hF
    obtain ⟨G, rfl⟩ : ∃ G, F = G + 1 := ⟨F - 1, by simp at hF; omega⟩
    rw [List.flatMap_cons, utf8Decode_cons, ih G (by simp at hF; omega)]

theorem length_le_flat_utf8 : ∀ l : List Char, l.length ≤ (l.flatMap utf8Bytes).length := by
  intro l
  induction l with
  | nil => simp
  | cons c l' ih =>
    rw [List.flatMap_cons, List.length_append]
    have := utf8Bytes_length_pos c
    simp only [List.length_cons]
    omega

theorem flat_le_encodeValue : ∀ l : List Char,
    (l.flatMap utf8Bytes).length ≤ (encodeValue l).length := by
  intro l
  induction l with
  | nil => simp [encodeValue]
  | cons c l' ih =>
    rw [List.flatMap_cons]
    have hE : encodeValue (c :: l') = encChar c ++ encodeValue l' := by
      simp [encodeValue]
    rw [hE, List.length_append, List.length_append]
    have hc : (utf8Bytes c).length ≤ (encChar c).length := by
      unfold encChar
      by_cases hsp : c = ' '
      · rw [if_pos hsp, hsp]
        decide
      · rw [if_neg hsp]
        by_cases hsafe : isUrlSafe c = true
        · rw [if_pos hsafe]
          have := isUrlSafe_ascii hsafe
          unfold utf8Bytes
          rw [if_pos this]
          simp
        · rw [if_neg hsafe]
          induction utf8Bytes c with
          | nil => simp
          | cons b bs ihb =>
            rw [List.flatMap_cons, List.length_append]
            simp only [List.length_cons]
            have : (encByte b).length = 3 := rfl
            omega
    omega

theorem decodeValue_encodeValue (l : List Char) : decodeValue (encodeValue l) = l := by
  unfold decodeValue
  have hpd : percentDecode (encodeValue l).length (encodeValue l) = l.flatMap utf8Bytes := by
    have hle := flat_le_encodeValue l
    have hfl : (encodeValue l).length =
        (l.flatMap utf8Bytes).length + ((encodeValue l).length - (l.flatMap utf8Bytes).length) := by
      omega
    rw [hfl]
    have happ : encodeValue l = encodeValue l ++ [] := by simp
    conv =>
      lhs
      rw [happ]
    rw [percentDecode_encodeValue l [] _]
    rw [percentDecode_nil]
    simp
  rw [hpd]
  exact utf8Decode_flat l _ (length_le_flat_utf8 l)

theorem takeWhile_all_append {p : Char → Bool} :
    ∀ (a : List Char), (∀ c ∈ a, p c = true) → ∀ (d : Char), p d = false → ∀ (b : List Char),
      (a ++ d :: b).takeWhile p = a ∧ (a ++ d :: b).dropWhile p = d :: b := by
  intro a
  induction a with
  | nil =>
    intro _ d hd b
    constructor
    · rw [List.nil_append, List.takeWhile_cons, hd]
      simp
    · rw [List.nil_append, List.dropWhile_cons, hd]
      simp
  | cons x a' ih =>
    intro ha d hd b
    have hx : p x = true := ha x (by simp)
    have ha' : ∀ c ∈ a', p c = true := fun c hc => ha c (by simp [hc])
    obtain ⟨h1, h2⟩ := ih ha' d hd b
    constructor
    · rw [List.cons_append, List.takeWhile_cons, hx, h1]
      simp
    · rw [List.cons_append, List.dropWhile_cons, hx, h2]
      simp

theorem splitAmp_append (a b : List Char) (ha : ∀ c ∈ a, (c != '&') = true) (fuel : Nat) :
    splitAmp (fuel + 1) (a ++ '&' :: b) = a :: splitAmp fuel b := by
  obtain ⟨h1, h2⟩ := takeWhile_all_append a ha '&' (by decide) b
  simp only [splitAmp]
  rw [h2, h1]

theorem splitAmp_single (a : List Char) (ha : ∀ c ∈ a, (c != '&') = true) (fuel : Nat) :
    splitAmp fuel a = [a] := by
  cases fuel with
  | zero => rfl
  | succ n =>
    have hdrop : a.dropWhile (· != '&') = [] := by
      rw [List.dropWhile_eq_nil_iff]
      intro x hx
      exact ha x hx
    have htake : a.takeWhile (· != '&') = a := by
      rw [List.takeWhile_eq_self_iff]
      intro x hx
      exact ha x hx
    simp only [splitAmp]
    rw [hdrop, htake]

theorem pairOf_split (k v : List Char) (hk : ∀ c ∈ k, (c != '=') = true) :
    pairOf (k ++ '=' :: v) = (k, v) := by
  obtain ⟨h1, h2⟩ := takeWhile_all_append k hk '=' (by decide) v
  unfold pairOf
  rw [h1, h2]

theorem hexDigit_mem_cases {c : Char} {b : Nat} (h : c ∈ encByte b) :
    c = '%' ∨ isHexDigit c = true := by
  unfold encByte at h
  simp at h
  rcases h with rfl | rfl | rfl
  · exact Or.inl rfl
  · exact Or.inr (hexDigit_isHex _)
  · exact Or.inr (hexDigit_isHex _)

theorem encodeValue_mem {c : Char} {l : List Char} (h : c ∈ encodeValue l) :
    c = '+' ∨ isUrlSafe c = true ∨ c = '%' ∨ isHexDigit c = true := by
  unfold encodeValue at h
  rw [List.mem_flatMap] at h
  obtain ⟨x, -, hcx⟩ := h
  unfold encChar at hcx
  by_cases hsp : x = ' '
  · rw [if_pos hsp] at hcx
    simp at hcx
    exact Or.inl hcx
  · rw [if_neg hsp] at hcx
    by_cases hsafe : isUrlSafe x = true
    · rw [if_pos hsafe] at hcx
      simp at hcx
      subst hcx
      exact Or.inr (Or.inl hsafe)
    · rw [if_neg hsafe] at hcx
      rw [List.mem_flatMap] at hcx
      obtain ⟨b, -, hcb⟩ := hcx
      rcases hexDigit_mem_cases hcb with h | h
      · exact Or.inr (Or.inr (Or.inl h))
      · exact Or.inr (Or.inr (Or.inr h))

theorem encodeValue_ne_amp_eq {l : List Char} : ∀ c ∈ encodeValue l,
    (c != '&') = true ∧ (c != '=') = true := by
  intro c hc
  rcases encodeValue_mem hc with rfl | h | rfl | h
  · exact ⟨by decide, by decide⟩
  · constructor <;>
      · rw [bne_iff_ne]
        intro he
        subst he
        exact absurd h (by decide)
  · exact ⟨by decide, by decide⟩
  · constructor <;>
      · rw [bne_iff_ne]
        intro he
        subst he
        exact absurd h (by decide)

/-- C8: writing a query into the URL parameters (the `URLSearchParams`
serialization performed by `performSearch`) and parsing it back (the
`searchParams.get('query')` read by the URL-parameter effect, which replays
the search) yields the identical query string, for every query string
including spaces and special characters. -/
theorem query_lit_ne_amp : ∀ c ∈ "query=".toList, (c != '&') = true := by decide

theorem page_lit_ne_amp : ∀ c ∈ "page=".toList, (c != '&') = true := by decide

theorem pageSize_lit_ne_amp : ∀ c ∈ "pageSize=".toList, (c != '&') = true := by decide

theorem url_query_roundtrip (q : String) (page size : Option Int) :
    getParam (serializeParams q page size) "query" = some q := by
  have hA : ∀ c ∈ "query=".toList ++ encodeValue q.data, (c != '&') = true := by
    intro c hc
    rcases List.mem_append.mp hc with h | h
    · exact query_lit_ne_amp c h
    · exact (encodeValue_ne_amp_eq c h).1
  have hB : ∀ c ∈ "page=".toList ++ encodeValue (jsNumToString page), (c != '&') = true := by
    intro c hc
    rcases List.mem_append.mp hc with h | h
    · exact page_lit_ne_amp c h
    · exact (encodeValue_ne_amp_eq c h).1
  have hC : ∀ c ∈ "pageSize=".toList ++ encodeValue (jsNumToString size), (c != '&') = true := by
    intro c hc
    rcases List.mem_append.mp hc with h | h
    · exact pageSize_lit_ne_amp c h
    · exact (encodeValue_ne_amp_eq c h).1
  have hdecomp : (serializeParams q page size).data =
      ("query=".toList ++ encodeValue q.data) ++ '&' ::
        (("page=".toList ++ encodeValue (jsNumToString page)) ++ '&' ::
          ("pageSize=".toList ++ encodeValue (jsNumToString size))) := by
    show "query=".toList ++ encodeValue q.data ++ "&page=".toList ++
        encodeValue (jsNumToString page) ++ "&pageSize=".toList ++
        encodeValue (jsNumToString size) = _
    have hc1 : "&page=".toList = '&' :: "page=".toList := rfl
    have hc2 : "&pageSize=".toList = '&' :: "pageSize=".toList := rfl
    rw [hc1, hc2]
    simp [List.append_assoc]
  have hsplit : splitAmp (serializeParams q page size).data.length
      (serializeParams q page size).data =
      [("query=".toList ++ encodeValue q.data),
        ("page=".toList ++ encodeValue (jsNumToString page)),
        ("pageSize=".toList ++ encodeValue (jsNumToString size))] := by
    have hlen : (serializeParams q page size).data.length =
        (("query=".toList ++ encodeValue q.data).length +
          (("page=".toList ++ encodeValue (jsNumToString page)).length +
            ("pageSize=".toList ++ encodeValue (jsNumToString size)).length + 1)) + 1 := by
      rw [hdecomp]
      simp
      omega
    rw [hlen, hdecomp, splitAmp_append _ _ hA]
    have hstep : ("query=".toList ++ encodeValue q.data).length +
        (("page=".toList ++ encodeValue (jsNumToString page)).length +
          ("pageSize=".toList ++ encodeValue (jsNumToString size)).length + 1) =
        (("query=".toList ++ encodeValue q.data).length +
          (("page=".toList ++ encodeValue (jsNumToString page)).length +
            ("pageSize=".toList ++ encodeValue (jsNumToString size)).length)) + 1 := by
      omega
    rw [hstep, splitAmp_append _ _ hB, splitAmp_single _ hC]
  have hpairA : pairOf ("query=".toList ++ encodeValue q.data) =
      ("query".toList, encodeValue q.data) := by
    have h : "query=".toList ++ encodeValue q.data =
        "query".toList ++ '=' :: encodeValue q.data := by
      have : "query=".toList = "query".toList ++ ['='] := by decide
      rw [this]
      simp
    rw [h]
    exact pairOf_split "query".toList _ (by decide)
  unfold getParam
  rw [hsplit]
  have hne : ("query=".toList ++ encodeValue q.data) ≠ [] := by simp
  simp only [getParamAux]
  rw [if_neg hne, hpairA]
  rw [show (("query".toList : List Char), encodeValue q.data).1 = "query".toList from rfl]
  rw [show (("query".toList : List Char), encodeValue q.data).2 = encodeValue q.data from rfl]
  have hcond : decodeValue "query".toList = ['q', 'u', 'e', 'r', 'y'] := by decide
  rw [if_pos hcond, decodeValue_encodeValue]
  rfl

/-! ## Claims about the Search State Coordinator -/

/-- C3: for every query whose trimmed form is empty, `performSearch` clears
the result list, sets the total to zero, clears the suggestions, issues no
network request, performs no navigation, and returns without entering the
loading state (`isLoading` is left exactly as it was and is never set). -/
theorem performSearch_blank (st : SearchState) (q : String) (page size : Option Int)
    (outcome : Except Unit SearchResponse) (h : trimChars q.data = []) :
    (performSearch st q page size outcome).1.searchResults = [] ∧
    (performSearch st q page size outcome).1.totalResults = 0 ∧
    (performSearch st q page size outcome).1.suggestions = [] ∧
    (performSearch st q page size outcome).2.1 = [] ∧
    (performSearch st q page size outcome).2.2 = [] ∧
    (performSearch st q page size outcome).1.isLoading = st.isLoading := by
  unfold performSearch performSearchInternal
  rw [if_pos (by simp [h])]
  exact ⟨rfl, rfl, rfl, rfl, rfl, rfl⟩

theorem performSearch_blank_witness :
    trimChars ("  " : String).data = [] ∧
    ((performSearch initState "  " (some 1) (some 10) (Except.error ())).1.searchResults = [] ∧
      (performSearch initState "  " (some 1) (some 10) (Except.error ())).1.totalResults = 0 ∧
      (performSearch initState "  " (some 1) (some 10) (Except.error ())).1.suggestions = [] ∧
      (performSearch initState "  " (some 1) (some 10) (Except.error ())).2.1 = [] ∧
      (performSearch initState "  " (some 1) (some 10) (Except.error ())).2.2 = [] ∧
      (performSearch initState "  " (some 1) (some 10) (Except.error ())).1.isLoading =
        initState.isLoading) :=
  ⟨by decide, performSearch_blank initState "  " (some 1) (some 10) (Except.error ()) (by decide)⟩

/-- C4: for every non-blank query dispatched while not already loading, a
failed request leaves empty results, zero total and empty suggestions, and
`isLoading` is false after the call completes whatever the outcome was.  The
failure is never propagated: the embedded function is total and returns a
state for every outcome. -/
theorem performSearch_failure_clears (st : SearchState) (q : String)
    (page size : Option Int) (hq : ¬trimChars q.data = []) (hl : st.isLoading = false) :
    ((performSearch st q page size (Except.error ())).1.searchResults = [] ∧
      (performSearch st q page size (Except.error ())).1.totalResults = 0 ∧
      (performSearch st q page size (Except.error ())).1.suggestions = []) ∧
    ∀ outcome : Except Unit SearchResponse,
      (performSearch st q page size outcome).1.isLoading = false := by
  constructor
  · unfold performSearch performSearchInternal
    rw [if_neg (by simp [hq]), if_neg (by simp [hl])]
    exact ⟨rfl, rfl, rfl⟩
  · intro outcome
    unfold performSearch performSearchInternal
    rw [if_neg (by simp [hq]), if_neg (by simp [hl])]
    cases outcome with
    | ok data => rfl
    | error e => rfl

theorem performSearch_failure_clears_witness :
    (¬trimChars ("cats" : String).data = [] ∧ initState.isLoading = false) ∧
    (((performSearch initState "cats" (some 1) (some 10) (Except.error ())).1.searchResults = [] ∧
      (performSearch initState "cats" (some 1) (some 10) (Except.error ())).1.totalResults = 0 ∧
      (performSearch initState "cats" (some 1) (some 10) (Except.error ())).1.suggestions = []) ∧
    ∀ outcome : Except Unit SearchResponse,
      (performSearch initState "cats" (some 1) (some 10) outcome).1.isLoading = false) :=
  ⟨⟨by decide, by decide⟩,
    performSearch_failure_clears initState "cats" (some 1) (some 10) (by decide) (by decide)⟩

/-- C5: while a search is outstanding (`isLoading` is true), a second
`performSearch` invocation issues no search request (the duplicate-search
guard), and for a non-blank query it leaves the state entirely unchanged. -/
theorem performSearch_no_double_fire (st : SearchState) (q : String)
    (page size : Option Int) (outcome : Except Unit SearchResponse)
    (h : st.isLoading = true) :
    (performSearch st q page size outcome).2.1 = [] ∧
    (¬trimChars q.data = [] →
      (performSearch st q page size outcome).1 =
        { st with hasProcessedUrlParams := false }) := by
  constructor
  · unfold performSearch performSearchInternal
    by_cases hq : (trimChars q.data).isEmpty = true
    · rw [if_pos hq]
    · rw [if_neg hq, if_pos (by simp [h])]
  · intro hq
    unfold performSearch performSearchInternal
    rw [if_neg (by simp [hq]), if_pos (by simp [h])]

theorem performSearch_no_double_fire_witness :
    ({ initState with isLoading := true } : SearchState).isLoading = true ∧
    ((performSearch { initState with isLoading := true } "cats" (some 1) (some 10)
        (Except.error ())).2.1 = [] ∧
      (¬trimChars ("cats" : String).data = [] →
        (performSearch { initState with isLoading := true } "cats" (some 1) (some 10)
            (Except.error ())).1 =
          { { initState with isLoading := true } with hasProcessedUrlParams := false })) :=
  ⟨by decide,
    performSearch_no_double_fire { initState with isLoading := true } "cats"
      (some 1) (some 10) (Except.error ()) (by decide)⟩

/-- C7: `fetchSuggestions` issues no suggestion request for any input whose
trimmed length is below 2 (indeed, in the current revision the remote call is
disabled for every input), and the `SearchBar` debounce guard does not even
invoke it for such inputs. -/
theorem fetchSuggestions_short_no_request (st : SearchState) (q : String)
    (h : (trimChars q.data).length < 2) :
    (fetchSuggestions st q).2.1 = [] ∧ debouncedFetchFires q = false := by
  constructor
  · unfold fetchSuggestions
    by_cases hq : (trimChars q.data).isEmpty = true
    · rw [if_pos hq]
    · rw [if_neg hq]
  · unfold debouncedFetchFires
    simp
    omega

theorem fetchSuggestions_short_no_request_witness :
    (trimChars ("a" : String).data).length < 2 ∧
    ((fetchSuggestions initState "a").2.1 = [] ∧ debouncedFetchFires "a" = false) :=
  ⟨by decide, fetchSuggestions_short_no_request initState "a" (by decide)⟩

/-! ## C6: the page invariant -/

theorem orJs_one_ge (v : Option Int) (h : 0 ≤ v.getD 0) : 1 ≤ orJs v 1 := by
  cases v with
  | none => decide
  | some x =>
    simp [orJs]
    simp at h
    by_cases hx : x = 0
    · rw [if_pos hx]
    · rw [if_neg hx]; omega

theorem applyQueryParam_page (st : SearchState) (qp : Option String) :
    (applyQueryParam st qp).currentPage = st.currentPage := by
  cases qp with
  | none => rfl
  | some s =>
    show (if s ≠ "" then _ else _ : SearchState).currentPage = st.currentPage
    by_cases h : s ≠ ""
    · rw [if_pos h]
    · rw [if_neg h]

theorem applyPageSizeParam_page (st : SearchState) (ps : Option String) :
    (applyPageSizeParam st ps).currentPage = st.currentPage := by
  cases ps with
  | none => rfl
  | some s =>
    show (if s ≠ "" then _ else _ : SearchState).currentPage = st.currentPage
    by_cases h : s ≠ ""
    · rw [if_pos h]
    · rw [if_neg h]

theorem applyPageParam_page_ge (st : SearchState) (pp : Option String)
    (hp : ∀ s, pp = some s → s ≠ "" → 0 ≤ (jsParseInt s).getD 0)
    (h : 1 ≤ st.currentPage) : 1 ≤ (applyPageParam st pp).currentPage := by
  cases pp with
  | none => exact h
  | some s =>
    show 1 ≤ (if s ≠ "" then _ else _ : SearchState).currentPage
    by_cases hs : s ≠ ""
    · rw [if_pos hs]
      exact orJs_one_ge _ (hp s rfl hs)
    · rw [if_neg hs]; exact h

theorem performSearchInternal_page (st : SearchState) (q : String)
    (page size : Option Int) (nav : Bool) (outcome : Except Unit SearchResponse)
    (hg : goodOutcome outcome) (h : 1 ≤ st.currentPage) :
    1 ≤ (performSearchInternal st q page size nav outcome).1.currentPage := by
  unfold performSearchInternal
  by_cases hq : (trimChars q.data).isEmpty = true
  · rw [if_pos hq]; exact h
  · rw [if_neg hq]
    by_cases hl : st.isLoading = true
    · rw [if_pos hl]; exact h
    · rw [if_neg hl]
      cases outcome with
      | ok data => exact orJs_one_ge data.page (hg data rfl)
      | error e => exact h

theorem urlEffect_page (st : SearchState) (s : String)
    (outcome : Except Unit SearchResponse) (hp : goodPageParam s)
    (hg : goodOutcome outcome) (h : 1 ≤ st.currentPage) :
    1 ≤ (urlEffect st s outcome).1.currentPage := by
  have h3 : 1 ≤ (applyPageSizeParam (applyPageParam
      (applyQueryParam st (getParam s "query")) (getParam s "page"))
      (getParam s "pageSize")).currentPage := by
    rw [applyPageSizeParam_page]
    refine applyPageParam_page_ge _ _ hp ?_
    rw [applyQueryParam_page]
    exact h
  simp only [urlEffect]
  by_cases hguard :
      st.hasProcessedUrlParams ∧ getParam s "query" = some st.lastSearchQuery
  · rw [if_pos hguard]; exact h
  · rw [if_neg hguard]
    cases hqy : getParam s "query" with
    | none =>
      rw [hqy] at h3
      exact h3
    | some qp =>
      rw [hqy] at h3
      show 1 ≤ (if qp ≠ "" ∧ ¬st.hasProcessedUrlParams = true then _ else
        _ : SearchState × List ApiRequest × List String).1.currentPage
      by_cases hcond : qp ≠ "" ∧ ¬st.hasProcessedUrlParams = true
      · rw [if_pos hcond]
        exact performSearchInternal_page _ qp _ _ false outcome hg h3
      · rw [if_neg hcond]
        exact h3

/-- C6 counterexample: the page invariant as spelt out is false.  A URL
carrying `page=-3` is parsed by `parseInt(pageParam, 10) || 1`, and `-3` is
truthy, so the coordinator reaches a state with `currentPage = -3 < 1`. -/
theorem page_can_go_below_one :
    ∃ st : SearchState, Reachable st ∧ st.currentPage < 1 :=
  ⟨(urlEffect initState "page=-3" (Except.error ())).1,
    Reachable.url "page=-3" (Except.error ()) Reachable.init, by decide⟩

/-- C6 (amended): the invariant holds under nonnegative page inputs: whenever
every URL `page` parameter and every response `page` field entering the
coordinator is nonnegative (`ReachableGood`), all three operations —
initialisation, the URL-parameter effect and `performSearch` — preserve
`currentPage ≥ 1`, because `x || 1` then yields a positive page. -/
theorem page_at_least_one (st : SearchState) (h : ReachableGood st) :
    1 ≤ st.currentPage := by
  induction h with
  | init => decide
  | url s outcome hp hg _ ih => exact urlEffect_page _ s outcome hp hg ih
  | search q page size outcome hg _ ih =>
    exact performSearchInternal_page _ q page size true outcome hg ih

theorem page_at_least_one_witness :
    ReachableGood initState ∧ 1 ≤ initState.currentPage :=
  ⟨ReachableGood.init, page_at_least_one initState ReachableGood.init⟩

end ZetaCrush
